import Mathlib

/-!
# EVT2 event stream decoder

Shallow embedding of `EVT2Decoder`
(`hal_psee_plugins/include/decoders/evt2/evt2_decoder.h`) and the properties
of its timestamp reconstruction.

Conventions of the embedding.

* `timestamp` is a signed 64-bit integer in the source.  Signed overflow is
  undefined behaviour in C++, so the arithmetic is carried out in `Int`: the
  model is exact on every run on which the C++ arithmetic is defined.
* A range of raw events `[cur_raw_ev, raw_ev_end)` is a `List RawEvent`.
* The two forwarders are output sinks: what they are given is collected, in
  forwarding order, in a list of `Forwarded` values.
* A decoder is the record of its five data members; the constructor flag
  `time_shifting_enabled` is passed to `decode_impl` explicitly.
-/

namespace Metavision

/-- Modelled from the spec: the constants of `decoders/evt2/evt2_event_types.h`,
which is not part of the sources at hand.  `EVT2EventsTimeStampBits` is the
width of the fine-offset field (the value of `NumBitsInTimestampLSB`); the other
four fields are the numeric values of the type tags the decoder dispatches on.
They are parameters of the whole development. -/
structure EVT2Format where
  EVT2EventsTimeStampBits : Nat
  LEFT_TD_LOW : Nat
  LEFT_TD_HIGH : Nat
  EVT_TIME_HIGH : Nat
  EXT_TRIGGER : Nat
deriving DecidableEq, Repr

/-- Modelled from the spec: the spec leaves the constants of `EVT2Format`
symbolic; this instance takes them as in the EVT2 wire format (6 fine timestamp
bits, which with the 4-bit tag and the 28-bit TIME_HIGH payload fill the 32-bit
word; tags 0 and 1 for CD words, 8 for TIME_HIGH, 10 for EXTERNAL_TRIGGER).  It
is used for concrete evaluations only: the general statements hold for every
`EVT2Format`. -/
def evt2 : EVT2Format :=
  { EVT2EventsTimeStampBits := 6
    LEFT_TD_LOW := 0
    LEFT_TD_HIGH := 1
    EVT_TIME_HIGH := 8
    EXT_TRIGGER := 10 }

/-- Modelled from the spec: one 32-bit encoded word, through the bit-field views
the decoder casts it to (`EventBase::RawEvent`, `EVT2Event2D`,
`EVT2EventExtTrigger`, declared in headers that are not part of the sources at
hand).  `type` is the 4-bit tag, `trail` the 28-bit payload read for a
TIME_HIGH word, `timestamp` the fine offset of a CD or trigger word, `x`, `y`
the CD coordinates, `value` and `id` the trigger value and channel.  Each branch
of the decoder reads the fields of one view only; the others are immaterial to
it. -/
structure RawEvent where
  type : Nat
  trail : Nat
  timestamp : Nat
  x : Nat
  y : Nat
  value : Nat
  id : Nat
deriving DecidableEq, Repr

/-- What a forwarder receives: `cd x y p t` is a call of the CD forwarder,
`trigger value t id` a call of the trigger forwarder. -/
inductive Forwarded where
  | cd (x y p : Nat) (t : Int)
  | trigger (value : Int) (t : Int) (id : Int)
deriving DecidableEq, Repr

/-- The data members of `EVT2Decoder`. -/
structure EVT2Decoder where
  base_time_set_ : Bool
  base_time_ : Int
  shift_th_ : Int
  last_timestamp_ : Int
  full_shift_ : Int
deriving DecidableEq, Repr

/-- A decoder right after construction.  `base_time_` has no initialiser in the
source, its value `b` is indeterminate. -/
def EVT2Decoder.fresh (b : Int) : EVT2Decoder :=
  { base_time_set_ := false
    base_time_ := b
    shift_th_ := 0
    last_timestamp_ := -1
    full_shift_ := 0 }

section Decoder

variable (F : EVT2Format)

/-- `NumBitsInTimestampLSB = EVT2EventsTimeStampBits`. -/
def NumBitsInTimestampLSB : Nat := F.EVT2EventsTimeStampBits

/-- `MaxTimestamp = timestamp((1 << 28) - 1) << NumBitsInTimestampLSB`. -/
def MaxTimestamp : Int := ((((1 <<< 28) - 1) <<< NumBitsInTimestampLSB F : Nat) : Int)

/-- `LoopThreshold = 10000`. -/
def LoopThreshold : Int := 10000

/-- `TimeLoop = MaxTimestamp + (1 << NumBitsInTimestampLSB)`. -/
def TimeLoop : Int := MaxTimestamp F + ((1 <<< NumBitsInTimestampLSB F : Nat) : Int)

/-- The coarse value of a word: `timestamp(ev->trail) << NumBitsInTimestampLSB`. -/
def coarse (ev : RawEvent) : Int := ((ev.trail <<< NumBitsInTimestampLSB F : Nat) : Int)

/-- The test `ev->type == EVT_TIME_HIGH`. -/
def isTimeHigh (ev : RawEvent) : Bool := ev.type == F.EVT_TIME_HIGH

/-- The second branch of the dispatch: a CD word (tag `LEFT_TD_LOW` or
`LEFT_TD_HIGH`) that the first branch did not take. -/
def isCD (ev : RawEvent) : Bool :=
  !isTimeHigh F ev && (ev.type == F.LEFT_TD_LOW || ev.type == F.LEFT_TD_HIGH)

/-- The third branch of the dispatch: an external trigger word. -/
def isTrigger (ev : RawEvent) : Bool :=
  !isTimeHigh F ev && !isCD F ev && ev.type == F.EXT_TRIGGER

/-- A word that forwards an event: a CD word or a trigger word. -/
def isEvent (ev : RawEvent) : Bool := isCD F ev || isTrigger F ev

/-- `static_cast<unsigned short>`. -/
def toUShort (v : Nat) : Nat := v % 65536

/-- `static_cast<short>`. -/
def toShort (v : Nat) : Int :=
  if v % 65536 < 32768 then ((v % 65536 : Nat) : Int) else ((v % 65536 : Nat) : Int) - 65536

/-- `has_time_loop(current_time_us, base_time_us)`. -/
def has_time_loop (current_time_us base_time_us : Int) : Bool :=
  decide (current_time_us < base_time_us) &&
    decide (base_time_us - current_time_us ≥ MaxTimestamp F - LoopThreshold)

/-- The loop of `buffer_has_time_loop`, on the range reversed: `rev` lists the
words from `raw_ev_end - 1` down to `cur_raw_ev`. -/
def buffer_has_time_loop_rev (base_time_us timeshift_us : Int) : List RawEvent → Bool
  | [] => false
  | ev :: rest =>
    if isTimeHigh F ev then
      has_time_loop F (coarse F ev + timeshift_us) base_time_us
    else
      buffer_has_time_loop_rev base_time_us timeshift_us rest

/-- `buffer_has_time_loop(cur_raw_ev, raw_ev_end, base_time_us, timeshift_us)`:
the range is scanned backward from its end. -/
def buffer_has_time_loop (buf : List RawEvent) (base_time_us timeshift_us : Int) : Bool :=
  buffer_has_time_loop_rev F base_time_us timeshift_us buf.reverse

/-- One iteration of the loop of `decode_events_buffer<UPDATE_LOOP, APPLY_TIMESHIFT>`:
the new state and what is forwarded. -/
def decode_event (UPDATE_LOOP APPLY_TIMESHIFT : Bool) (s : EVT2Decoder) (ev : RawEvent) :
    EVT2Decoder × List Forwarded :=
  if isTimeHigh F ev then
    let new_th := coarse F ev
    if UPDATE_LOOP then
      let new_th := new_th + s.full_shift_
      if has_time_loop F new_th s.base_time_ then
        ({ s with full_shift_ := s.full_shift_ + TimeLoop F, base_time_ := new_th + TimeLoop F }, [])
      else
        ({ s with base_time_ := new_th }, [])
    else
      ({ s with base_time_ := if APPLY_TIMESHIFT then new_th + s.full_shift_ else new_th }, [])
  else if ev.type == F.LEFT_TD_LOW || ev.type == F.LEFT_TD_HIGH then
    let t := s.base_time_ + (ev.timestamp : Int)
    ({ s with last_timestamp_ := t }, [Forwarded.cd (toUShort ev.x) (toUShort ev.y) (ev.type % 2) t])
  else if ev.type == F.EXT_TRIGGER then
    let t := s.base_time_ + (ev.timestamp : Int)
    ({ s with last_timestamp_ := t }, [Forwarded.trigger (toShort ev.value) t (toShort ev.id)])
  else
    (s, [])

/-- `decode_events_buffer<UPDATE_LOOP, APPLY_TIMESHIFT>(cur_raw_ev, raw_ev_end)`. -/
def decode_events_buffer (UPDATE_LOOP APPLY_TIMESHIFT : Bool) :
    EVT2Decoder → List RawEvent → EVT2Decoder × List Forwarded
  | s, [] => (s, [])
  | s, ev :: rest =>
    let r := decode_event F UPDATE_LOOP APPLY_TIMESHIFT s ev
    let r2 := decode_events_buffer UPDATE_LOOP APPLY_TIMESHIFT r.1 rest
    (r2.1, r.2 ++ r2.2)

/-- The first loop of `decode_impl` (entered when `base_time_set_` is false):
scans to the first TIME_HIGH word, initialises the state from it and stops on
it (the `break` skips the increment, so the word stays in the range that is
decoded next).  Returns the state and the range `[cur_raw_ev, raw_ev_end)`. -/
def find_first_time_high (time_shifting_enabled : Bool) (s : EVT2Decoder) :
    List RawEvent → EVT2Decoder × List RawEvent
  | [] => (s, [])
  | ev :: rest =>
    if isTimeHigh F ev then
      let t := coarse F ev
      let shift_th := if time_shifting_enabled then t else 0
      ({ s with base_time_ := t, shift_th_ := shift_th, full_shift_ := -shift_th,
                base_time_set_ := true }, ev :: rest)
    else
      find_first_time_high time_shifting_enabled s rest

/-- The first statement of `decode_impl`: `if (!base_time_set_) { ... }`. -/
def init_base_time (time_shifting_enabled : Bool) (s : EVT2Decoder) (buf : List RawEvent) :
    EVT2Decoder × List RawEvent :=
  if !s.base_time_set_ then find_first_time_high F time_shifting_enabled s buf else (s, buf)

/-- The second statement of `decode_impl`: the loop pre-scan and the choice of
one of the three instances of `decode_events_buffer`. -/
def decode_dispatch (s : EVT2Decoder) (buf : List RawEvent) : EVT2Decoder × List Forwarded :=
  if !buffer_has_time_loop F buf s.base_time_ s.full_shift_ then
    if s.full_shift_ == 0 then
      decode_events_buffer F false false s buf
    else
      decode_events_buffer F false true s buf
  else
    decode_events_buffer F true true s buf

/-- `decode_impl(cur_raw_data, raw_data_end)`. -/
def decode_impl (time_shifting_enabled : Bool) (s : EVT2Decoder) (buf : List RawEvent) :
    EVT2Decoder × List Forwarded :=
  let i := init_base_time F time_shifting_enabled s buf
  decode_dispatch F i.1 i.2

/-- A sequence of `decode` calls on one instance, one buffer per call; the
forwarded events of all calls are collected in order. -/
def decode_calls (time_shifting_enabled : Bool) :
    EVT2Decoder → List (List RawEvent) → EVT2Decoder × List Forwarded
  | s, [] => (s, [])
  | s, buf :: bufs =>
    let r := decode_impl F time_shifting_enabled s buf
    let r2 := decode_calls time_shifting_enabled r.1 bufs
    (r2.1, r.2 ++ r2.2)

end Decoder

/-- Whether decoding `buf` from `s` with `decode_events_buffer<true, true>`
meets a TIME_HIGH word that passes the wraparound test against the `base_time_`
in effect when the word is reached. -/
def loop_found (F : EVT2Format) : EVT2Decoder → List RawEvent → Bool
  | _, [] => false
  | s, ev :: rest =>
    (isTimeHigh F ev && has_time_loop F (coarse F ev + s.full_shift_) s.base_time_) ||
      loop_found F (decode_event F true true s ev).1 rest

/-- The pre-scan of one `decode` call is accurate: it reports a loop whenever
`loop_found` holds of the range the call decodes. -/
def prescan_accurate (F : EVT2Format) (time_shifting_enabled : Bool) (s : EVT2Decoder)
    (buf : List RawEvent) : Bool :=
  let i := init_base_time F time_shifting_enabled s buf
  !loop_found F i.1 i.2 || buffer_has_time_loop F i.2 i.1.base_time_ i.1.full_shift_

/-- `get_timestamp_shift(ts_shift)`: the returned flag and the value written to
`ts_shift`. -/
def get_timestamp_shift (s : EVT2Decoder) : Bool × Int := (s.base_time_set_, s.shift_th_)

/-- `get_last_timestamp()`. -/
def get_last_timestamp (s : EVT2Decoder) : Int := s.last_timestamp_

/-- The timestamp given to a forwarder. -/
def Forwarded.t : Forwarded → Int
  | Forwarded.cd _ _ _ t => t
  | Forwarded.trigger _ t _ => t

/-- The events given to the CD forwarder, in order. -/
def cd_events (out : List Forwarded) : List Forwarded :=
  out.filter (fun e => match e with | Forwarded.cd _ _ _ _ => true | _ => false)

/-- The events given to the trigger forwarder, in order. -/
def trigger_events (out : List Forwarded) : List Forwarded :=
  out.filter (fun e => match e with | Forwarded.trigger _ _ _ => true | _ => false)

/-- A TIME_HIGH word of payload `p`. -/
def time_high_word (F : EVT2Format) (p : Nat) : RawEvent :=
  { type := F.EVT_TIME_HIGH, trail := p, timestamp := 0, x := 0, y := 0, value := 0, id := 0 }

/-- A CD word of tag `LEFT_TD_LOW`, fine offset `f` and coordinates `(1, 2)`. -/
def cd_word (F : EVT2Format) (f : Nat) : RawEvent :=
  { type := F.LEFT_TD_LOW, trail := 0, timestamp := f, x := 1, y := 2, value := 0, id := 0 }

/-- First part of a buffer whose coarse counter wraps: the last coarse value
before the wrap, the first one after it, one CD word. -/
def wrap_buffer_head : List RawEvent :=
  [time_high_word evt2 (2 ^ 28 - 1), time_high_word evt2 0, cd_word evt2 0]

/-- A TIME_HIGH word 64000 ticks after the wrap, further than `LoopThreshold`. -/
def late_buffer_tail : List RawEvent := [time_high_word evt2 1000]

/-- A buffer whose first coarse value is the largest one, followed by one CD
word. -/
def near_max_buffer : List RawEvent := [time_high_word evt2 (2 ^ 28 - 1), cd_word evt2 0]

/-- A buffer `[TIME_HIGH(MaxTimestamp), E1, TIME_HIGH(0), E2]`: one wrap of the
coarse counter between two CD words. -/
def one_wrap_buffer : List RawEvent :=
  [time_high_word evt2 (2 ^ 28 - 1), cd_word evt2 0, time_high_word evt2 0, cd_word evt2 0]

/-- The timestamps of the forwarded events, in forwarding order. -/
def timestamps (out : List Forwarded) : List Int := out.map Forwarded.t

/-- The fine offsets of the CD and trigger words of a buffer, in buffer order. -/
def fine_offsets (F : EVT2Format) (buf : List RawEvent) : List Int :=
  (buf.filter (isEvent F)).map (fun ev => (ev.timestamp : Int))

/-- Two buffers for two decode calls: a TIME_HIGH word and a CD word of fine
offset 5, then a CD word of fine offset 3. -/
def decreasing_fine_calls : List (List RawEvent) :=
  [[time_high_word evt2 1, cd_word evt2 5], [cd_word evt2 3]]

/-- A decoder without time shifting whose last coarse word had payload 1 and
whose last event had fine offset 2. -/
def coarse_one_state : EVT2Decoder :=
  { base_time_set_ := true
    base_time_ := 64
    shift_th_ := 0
    last_timestamp_ := 66
    full_shift_ := 0 }

/-- An external trigger word of fine offset `f`, value 1 and channel 0. -/
def trigger_word (F : EVT2Format) (f : Nat) : RawEvent :=
  { type := F.EXT_TRIGGER, trail := 0, timestamp := f, x := 0, y := 0, value := 1, id := 0 }

/-- The coarse value in effect after a range of words: that of its last
TIME_HIGH word, or `c` when it has none. -/
def last_coarse (F : EVT2Format) : Int → List RawEvent → Int
  | c, [] => c
  | c, ev :: rest => last_coarse F (if isTimeHigh F ev then coarse F ev else c) rest

/-- The coarse values of the TIME_HIGH words of a range never decrease,
starting from the coarse value `c`. -/
def coarse_nondecreasing (F : EVT2Format) : Int → List RawEvent → Bool
  | _, [] => true
  | c, ev :: rest =>
    if isTimeHigh F ev then
      decide (c ≤ coarse F ev) && coarse_nondecreasing F (coarse F ev) rest
    else
      coarse_nondecreasing F c rest

/-- The timestamps as they are on the wire: for each CD or trigger word, the
coarse value of the latest TIME_HIGH word before it (`c` when there is none)
plus the fine offset of the word. -/
def wire_timestamps (F : EVT2Format) : Int → List RawEvent → List Int
  | _, [] => []
  | c, ev :: rest =>
    if isTimeHigh F ev then
      wire_timestamps F (coarse F ev) rest
    else
      (fine_offsets F [ev]).map (fun f => c + f) ++ wire_timestamps F c rest

/-- The tag of the word is one of the four the decoder dispatches on:
TIME_HIGH, CD-low, CD-high, EXTERNAL_TRIGGER. -/
def handled_tag (F : EVT2Format) (ev : RawEvent) : Bool :=
  ev.type == F.EVT_TIME_HIGH || ev.type == F.LEFT_TD_LOW || ev.type == F.LEFT_TD_HIGH ||
    ev.type == F.EXT_TRIGGER

/-- The buffer without the words whose tag is none of the four handled ones. -/
def drop_other_tags (F : EVT2Format) (buf : List RawEvent) : List RawEvent :=
  buf.filter (handled_tag F)

/-- A word whose tag (15) is none of the four handled ones in the EVT2 format. -/
def other_word (payload : Nat) : RawEvent :=
  { type := 15, trail := payload, timestamp := 7, x := 3, y := 4, value := 1, id := 2 }

/-- The fields of the word fit the bit-fields they are read from: a 28-bit
payload, a fine offset of `NumBitsInTimestampLSB` bits, and coordinates, trigger
value and channel narrower than the 16-bit types they are cast to when
forwarded. -/
def fields_fit (F : EVT2Format) (ev : RawEvent) : Bool :=
  decide (ev.trail < 2 ^ 28) && decide (ev.timestamp < 2 ^ NumBitsInTimestampLSB F) &&
    decide (ev.x < 2 ^ 16) && decide (ev.y < 2 ^ 16) &&
    decide (ev.value < 2 ^ 15) && decide (ev.id < 2 ^ 15)

/-- The event the spec has forwarded for one word between two coarse words,
`base_time` being the coarse time base: a CD word gives
`(x, y, polarity, base_time + fine offset)` to the CD sink, with polarity 0 for
CD-low and 1 for CD-high; a trigger word gives
`(value, base_time + fine offset, channel id)` to the trigger sink; any other
word gives nothing. -/
def expected_event (F : EVT2Format) (base_time : Int) (ev : RawEvent) : List Forwarded :=
  if isCD F ev then
    [Forwarded.cd ev.x ev.y (if ev.type = F.LEFT_TD_HIGH then 1 else 0)
      (base_time + (ev.timestamp : Int))]
  else if isTrigger F ev then
    [Forwarded.trigger (ev.value : Int) (base_time + (ev.timestamp : Int)) (ev.id : Int)]
  else
    []

/-- The events the spec has forwarded for a buffer without TIME_HIGH word, in
buffer order. -/
def expected_events (F : EVT2Format) (base_time : Int) (buf : List RawEvent) :
    List Forwarded :=
  (buf.map (expected_event F base_time)).flatten

/-- A CD word of tag `LEFT_TD_HIGH`, fine offset `f` and coordinates `(5, 6)`. -/
def cd_high_word (F : EVT2Format) (f : Nat) : RawEvent :=
  { type := F.LEFT_TD_HIGH, trail := 0, timestamp := f, x := 5, y := 6, value := 0, id := 0 }

/-- A buffer without TIME_HIGH word: CD-low, trigger, another tag, CD-high. -/
def events_buffer : List RawEvent :=
  [cd_word evt2 3, trigger_word evt2 5, other_word 9, cd_high_word evt2 63]

/-- Modelled from the spec: the two forwarders and the optional sinks behind
them belong to `I_Decoder` (`metavision/hal/facilities/i_decoder.h`), which is
not part of the sources at hand.  Of the events given to the forwarders, the
ones a sink receives: an absent sink drops the events of its kind. -/
def delivered (has_cd_sink has_trigger_sink : Bool) (out : List Forwarded) : List Forwarded :=
  out.filter (fun e =>
    match e with
    | Forwarded.cd _ _ _ _ => has_cd_sink
    | Forwarded.trigger _ _ _ => has_trigger_sink)

/-- Modelled from the spec: a sequence of decode calls on a decoder constructed
with or without each of the two sinks (`I_Decoder`, not part of the sources at
hand): the final state and what the sinks received. -/
def decode_calls_with_sinks (F : EVT2Format) (time_shifting_enabled : Bool)
    (has_cd_sink has_trigger_sink : Bool) (s : EVT2Decoder) (bufs : List (List RawEvent)) :
    EVT2Decoder × List Forwarded :=
  ((decode_calls F time_shifting_enabled s bufs).1,
    delivered has_cd_sink has_trigger_sink (decode_calls F time_shifting_enabled s bufs).2)

/-- A decoder without time shifting whose last coarse word had the largest
payload: the state a fresh decoder is in after `[TIME_HIGH(2^28 - 1)]`. -/
def max_coarse_state : EVT2Decoder :=
  { base_time_set_ := true
    base_time_ := 17179869120
    shift_th_ := 0
    last_timestamp_ := -1
    full_shift_ := 0 }

/-- A buffer in which the coarse counter has wrapped to 0 and whose last
TIME_HIGH word lies 64000 ticks after the wrap. -/
def missed_wrap_buffer : List RawEvent :=
  [time_high_word evt2 0, cd_word evt2 0, time_high_word evt2 1000]

/-- The function `decode_impl` with the dispatch replaced by
`decode_events_buffer<true, true>`: every TIME_HIGH word is tested for a wrap. -/
def decode_impl_loop (F : EVT2Format) (time_shifting_enabled : Bool) (s : EVT2Decoder)
    (buf : List RawEvent) : EVT2Decoder × List Forwarded :=
  decode_events_buffer F true true (init_base_time F time_shifting_enabled s buf).1
    (init_base_time F time_shifting_enabled s buf).2

section Lemmas

variable (F : EVT2Format)

theorem decode_events_buffer_append (ul ap : Bool) (s : EVT2Decoder) (A B : List RawEvent) :
    decode_events_buffer F ul ap s (A ++ B) =
      ((decode_events_buffer F ul ap (decode_events_buffer F ul ap s A).1 B).1,
        (decode_events_buffer F ul ap s A).2 ++
          (decode_events_buffer F ul ap (decode_events_buffer F ul ap s A).1 B).2) := by
  induction A generalizing s with
  | nil => simp [decode_events_buffer]
  | cons ev A ih => simp [decode_events_buffer, ih, List.append_assoc]

theorem decode_event_base_time_set (ul ap : Bool) (s : EVT2Decoder) (ev : RawEvent) :
    (decode_event F ul ap s ev).1.base_time_set_ = s.base_time_set_ := by
  unfold decode_event
  dsimp only
  split_ifs <;> rfl

theorem decode_events_buffer_base_time_set (ul ap : Bool) (s : EVT2Decoder)
    (buf : List RawEvent) :
    (decode_events_buffer F ul ap s buf).1.base_time_set_ = s.base_time_set_ := by
  induction buf generalizing s with
  | nil => rfl
  | cons ev buf ih => simp [decode_events_buffer, ih, decode_event_base_time_set]

theorem decode_event_shift_th (ul ap : Bool) (s : EVT2Decoder) (ev : RawEvent) :
    (decode_event F ul ap s ev).1.shift_th_ = s.shift_th_ := by
  unfold decode_event
  dsimp only
  split_ifs <;> rfl

theorem decode_events_buffer_shift_th (ul ap : Bool) (s : EVT2Decoder)
    (buf : List RawEvent) :
    (decode_events_buffer F ul ap s buf).1.shift_th_ = s.shift_th_ := by
  induction buf generalizing s with
  | nil => rfl
  | cons ev buf ih => simp [decode_events_buffer, ih, decode_event_shift_th]

theorem decode_event_full_shift (ap : Bool) (s : EVT2Decoder) (ev : RawEvent) :
    (decode_event F false ap s ev).1.full_shift_ = s.full_shift_ := by
  unfold decode_event
  simp only [Bool.false_eq_true, if_false]
  split_ifs <;> rfl

theorem decode_event_no_loop (s : EVT2Decoder) (ev : RawEvent)
    (h : (isTimeHigh F ev && has_time_loop F (coarse F ev + s.full_shift_) s.base_time_) = false) :
    decode_event F true true s ev = decode_event F false true s ev := by
  unfold decode_event
  by_cases hth : isTimeHigh F ev = true
  · simp only [hth, Bool.true_and] at h
    simp [hth, h]
  · simp [hth]

theorem decode_event_no_shift (s : EVT2Decoder) (ev : RawEvent) (h0 : s.full_shift_ = 0) :
    decode_event F false true s ev = decode_event F false false s ev := by
  unfold decode_event
  simp [h0]

theorem decode_events_buffer_no_loop (s : EVT2Decoder) (buf : List RawEvent)
    (h : loop_found F s buf = false) :
    decode_events_buffer F true true s buf = decode_events_buffer F false true s buf := by
  induction buf generalizing s with
  | nil => rfl
  | cons ev buf ih =>
    simp only [loop_found, Bool.or_eq_false_iff] at h
    simp only [decode_events_buffer]
    rw [ih _ h.2, decode_event_no_loop F s ev h.1]

theorem decode_events_buffer_no_shift (s : EVT2Decoder) (buf : List RawEvent)
    (h0 : s.full_shift_ = 0) :
    decode_events_buffer F false true s buf = decode_events_buffer F false false s buf := by
  induction buf generalizing s with
  | nil => rfl
  | cons ev buf ih =>
    simp only [decode_events_buffer]
    rw [decode_event_no_shift F s ev h0, ih]
    rw [decode_event_full_shift, h0]

theorem decode_dispatch_nil (s : EVT2Decoder) : decode_dispatch F s [] = (s, []) := by
  simp [decode_dispatch, buffer_has_time_loop, buffer_has_time_loop_rev, decode_events_buffer]

/-- When the pre-scan reports every loop that `decode_events_buffer<true, true>`
would find, the instance chosen by the dispatch computes what
`decode_events_buffer<true, true>` computes. -/
theorem decode_dispatch_eq_loop (s : EVT2Decoder) (buf : List RawEvent)
    (h : (!loop_found F s buf || buffer_has_time_loop F buf s.base_time_ s.full_shift_) = true) :
    decode_dispatch F s buf = decode_events_buffer F true true s buf := by
  unfold decode_dispatch
  by_cases hp : buffer_has_time_loop F buf s.base_time_ s.full_shift_ = true
  · simp [hp]
  · have hp2 : buffer_has_time_loop F buf s.base_time_ s.full_shift_ = false := by
      simpa using hp
    have hl : loop_found F s buf = false := by
      rw [hp2] at h
      simpa using h
    simp only [hp2, Bool.not_false, if_true]
    by_cases h0 : s.full_shift_ = 0
    · simp only [beq_iff_eq, h0, if_true]
      rw [decode_events_buffer_no_loop F s buf hl, decode_events_buffer_no_shift F s buf h0]
    · simp only [beq_iff_eq, h0, if_false]
      rw [decode_events_buffer_no_loop F s buf hl]

theorem find_first_time_high_none (ts : Bool) (s : EVT2Decoder) (buf : List RawEvent)
    (h : buf.any (isTimeHigh F) = false) : find_first_time_high F ts s buf = (s, []) := by
  induction buf with
  | nil => rfl
  | cons ev buf ih =>
    simp only [List.any_cons, Bool.or_eq_false_iff] at h
    simp [find_first_time_high, h.1, ih h.2]

theorem find_first_time_high_append_none (ts : Bool) (s : EVT2Decoder) (A B : List RawEvent)
    (h : A.any (isTimeHigh F) = false) :
    find_first_time_high F ts s (A ++ B) = find_first_time_high F ts s B := by
  induction A with
  | nil => rfl
  | cons ev A ih =>
    simp only [List.any_cons, Bool.or_eq_false_iff] at h
    simp [find_first_time_high, h.1, ih h.2]

theorem find_first_time_high_append_some (ts : Bool) (s : EVT2Decoder) (A B : List RawEvent)
    (h : A.any (isTimeHigh F) = true) :
    find_first_time_high F ts s (A ++ B) =
      ((find_first_time_high F ts s A).1, (find_first_time_high F ts s A).2 ++ B) ∧
    (find_first_time_high F ts s A).1.base_time_set_ = true := by
  induction A with
  | nil => simp at h
  | cons ev A ih =>
    by_cases hth : isTimeHigh F ev = true
    · simp [find_first_time_high, hth]
    · have hA : A.any (isTimeHigh F) = true := by
        simpa [List.any_cons, hth] using h
      simpa [find_first_time_high, hth] using ih hA

theorem decode_dispatch_base_time_set (s : EVT2Decoder) (buf : List RawEvent) :
    (decode_dispatch F s buf).1.base_time_set_ = s.base_time_set_ := by
  unfold decode_dispatch
  split_ifs <;> exact decode_events_buffer_base_time_set F _ _ s buf

theorem init_base_time_of_set (ts : Bool) (s : EVT2Decoder) (buf : List RawEvent)
    (h : s.base_time_set_ = true) : init_base_time F ts s buf = (s, buf) := by
  simp [init_base_time, h]

theorem init_base_time_of_not_set (ts : Bool) (s : EVT2Decoder) (buf : List RawEvent)
    (h : s.base_time_set_ = false) :
    init_base_time F ts s buf = find_first_time_high F ts s buf := by
  simp [init_base_time, h]

theorem decode_impl_eq_loop (ts : Bool) (s : EVT2Decoder) (buf : List RawEvent)
    (h : prescan_accurate F ts s buf = true) :
    decode_impl F ts s buf =
      decode_events_buffer F true true (init_base_time F ts s buf).1
        (init_base_time F ts s buf).2 := by
  unfold decode_impl
  exact decode_dispatch_eq_loop F _ _ h

/-- A buffer without TIME_HIGH word leaves a decoder that has no base time yet
as it is, and forwards nothing. -/
theorem decode_impl_not_set_none (ts : Bool) (s : EVT2Decoder) (buf : List RawEvent)
    (hs : s.base_time_set_ = false) (h : buf.any (isTimeHigh F) = false) :
    decode_impl F ts s buf = (s, []) := by
  unfold decode_impl
  rw [init_base_time_of_not_set F ts s buf hs, find_first_time_high_none F ts s buf h]
  exact decode_dispatch_nil F s

/-- Words without TIME_HIGH tag in front of a buffer are skipped by a decoder
that has no base time yet. -/
theorem decode_impl_not_set_append (ts : Bool) (s : EVT2Decoder) (A B : List RawEvent)
    (hs : s.base_time_set_ = false) (h : A.any (isTimeHigh F) = false) :
    decode_impl F ts s (A ++ B) = decode_impl F ts s B := by
  unfold decode_impl
  rw [init_base_time_of_not_set F ts s _ hs, init_base_time_of_not_set F ts s _ hs,
    find_first_time_high_append_none F ts s A B h]

theorem decode_dispatch_cases (s : EVT2Decoder) (buf : List RawEvent) :
    ∃ ul ap, decode_dispatch F s buf = decode_events_buffer F ul ap s buf := by
  unfold decode_dispatch
  split_ifs
  · exact ⟨false, false, rfl⟩
  · exact ⟨false, true, rfl⟩
  · exact ⟨true, true, rfl⟩

theorem decode_dispatch_shift_th (s : EVT2Decoder) (buf : List RawEvent) :
    (decode_dispatch F s buf).1.shift_th_ = s.shift_th_ := by
  obtain ⟨ul, ap, h⟩ := decode_dispatch_cases F s buf
  rw [h, decode_events_buffer_shift_th]

/-- A word that is not a TIME_HIGH word leaves `base_time_` and `full_shift_`
alone; a CD or trigger word forwards one event, stamped `base_time_` plus its
fine offset, and stores that timestamp; another word does nothing. -/
theorem decode_event_not_time_high (ul ap : Bool) (s : EVT2Decoder) (ev : RawEvent)
    (h : isTimeHigh F ev = false) :
    (decode_event F ul ap s ev).1.base_time_ = s.base_time_ ∧
    (decode_event F ul ap s ev).1.full_shift_ = s.full_shift_ ∧
    timestamps (decode_event F ul ap s ev).2 =
      (fine_offsets F [ev]).map (fun f => s.base_time_ + f) ∧
    (decode_event F ul ap s ev).1.last_timestamp_ =
      (((fine_offsets F [ev]).map (fun f => s.base_time_ + f)).getLast?).getD
        s.last_timestamp_ := by
  unfold decode_event fine_offsets isEvent isTrigger isCD timestamps
  simp only [h, Bool.false_eq_true, if_false, Bool.not_false, Bool.true_and]
  by_cases h1 : (ev.type == F.LEFT_TD_LOW || ev.type == F.LEFT_TD_HIGH) = true
  · simp [h1, h, Forwarded.t, List.filter]
  · have h1f : (ev.type == F.LEFT_TD_LOW || ev.type == F.LEFT_TD_HIGH) = false := by
      simpa using h1
    by_cases h2 : (ev.type == F.EXT_TRIGGER) = true
    · simp [h1f, h2, h, Forwarded.t, List.filter]
    · have h2f : (ev.type == F.EXT_TRIGGER) = false := by simpa using h2
      simp [h1f, h2f, h, List.filter]

theorem fine_offsets_cons (ev : RawEvent) (buf : List RawEvent) :
    fine_offsets F (ev :: buf) = fine_offsets F [ev] ++ fine_offsets F buf := by
  unfold fine_offsets
  rw [← List.map_append, ← List.filter_append]
  rfl

theorem fine_offsets_append (A B : List RawEvent) :
    fine_offsets F (A ++ B) = fine_offsets F A ++ fine_offsets F B := by
  unfold fine_offsets
  rw [List.filter_append, List.map_append]

theorem getLast?_getD_append (l1 l2 : List Int) (d : Int) :
    ((l1 ++ l2).getLast?).getD d = (l2.getLast?).getD ((l1.getLast?).getD d) := by
  rw [List.getLast?_append]
  cases h : l2.getLast? <;> simp

/-- Decoding a range without TIME_HIGH word, in any of the three instances:
`base_time_` and `full_shift_` are unchanged, one event is forwarded per CD or
trigger word, stamped `base_time_` plus the fine offset, and `last_timestamp_`
is the last of these timestamps (unchanged when there is none). -/
theorem decode_events_buffer_no_time_high (ul ap : Bool) (s : EVT2Decoder)
    (buf : List RawEvent) (h : buf.any (isTimeHigh F) = false) :
    (decode_events_buffer F ul ap s buf).1.base_time_ = s.base_time_ ∧
    (decode_events_buffer F ul ap s buf).1.full_shift_ = s.full_shift_ ∧
    timestamps (decode_events_buffer F ul ap s buf).2 =
      (fine_offsets F buf).map (fun f => s.base_time_ + f) ∧
    (decode_events_buffer F ul ap s buf).1.last_timestamp_ =
      (((fine_offsets F buf).map (fun f => s.base_time_ + f)).getLast?).getD
        s.last_timestamp_ := by
  induction buf generalizing s with
  | nil => simp [decode_events_buffer, fine_offsets, timestamps]
  | cons ev buf ih =>
    simp only [List.any_cons, Bool.or_eq_false_iff] at h
    obtain ⟨e1, e2, e3, e4⟩ := decode_event_not_time_high F ul ap s ev h.1
    obtain ⟨i1, i2, i3, i4⟩ := ih (decode_event F ul ap s ev).1 h.2
    simp only [decode_events_buffer]
    refine ⟨by rw [i1, e1], by rw [i2, e2], ?_, ?_⟩
    · rw [fine_offsets_cons, List.map_append, ← e3, ← e1, ← i3]
      simp [timestamps]
    · rw [fine_offsets_cons, List.map_append, getLast?_getD_append, ← e4, ← e1, ← i4]

theorem decode_impl_of_set (ts : Bool) (s : EVT2Decoder) (buf : List RawEvent)
    (hs : s.base_time_set_ = true) : decode_impl F ts s buf = decode_dispatch F s buf := by
  unfold decode_impl
  rw [init_base_time_of_set F ts s buf hs]

theorem decode_impl_base_time_set_of_set (ts : Bool) (s : EVT2Decoder) (buf : List RawEvent)
    (hs : s.base_time_set_ = true) : (decode_impl F ts s buf).1.base_time_set_ = true := by
  rw [decode_impl_of_set F ts s buf hs, decode_dispatch_base_time_set]
  exact hs

/-- A sequence of decode calls, none of which meets a TIME_HIGH word, on a
decoder that has its base time: see `decode_events_buffer_no_time_high`. -/
theorem decode_calls_no_time_high (ts : Bool) (s : EVT2Decoder) (bufs : List (List RawEvent))
    (hs : s.base_time_set_ = true) (h : ∀ buf ∈ bufs, buf.any (isTimeHigh F) = false) :
    (decode_calls F ts s bufs).1.base_time_ = s.base_time_ ∧
    (decode_calls F ts s bufs).1.full_shift_ = s.full_shift_ ∧
    timestamps (decode_calls F ts s bufs).2 =
      (fine_offsets F bufs.flatten).map (fun f => s.base_time_ + f) ∧
    (decode_calls F ts s bufs).1.last_timestamp_ =
      (((fine_offsets F bufs.flatten).map (fun f => s.base_time_ + f)).getLast?).getD
        s.last_timestamp_ := by
  induction bufs generalizing s with
  | nil => simp [decode_calls, fine_offsets, timestamps]
  | cons buf bufs ih =>
    have hbuf : buf.any (isTimeHigh F) = false := h buf (List.mem_cons_self _ _)
    have hrest : ∀ b ∈ bufs, b.any (isTimeHigh F) = false :=
      fun b hb => h b (List.mem_cons_of_mem _ hb)
    have hs1 := decode_impl_base_time_set_of_set F ts s buf hs
    obtain ⟨ul, ap, hd⟩ := decode_dispatch_cases F s buf
    have hd2 : decode_impl F ts s buf = decode_events_buffer F ul ap s buf := by
      rw [decode_impl_of_set F ts s buf hs, hd]
    obtain ⟨e1, e2, e3, e4⟩ := decode_events_buffer_no_time_high F ul ap s buf hbuf
    rw [← hd2] at e1 e2 e3 e4
    obtain ⟨i1, i2, i3, i4⟩ := ih (decode_impl F ts s buf).1 hs1 hrest
    simp only [decode_calls, List.flatten_cons]
    refine ⟨by rw [i1, e1], by rw [i2, e2], ?_, ?_⟩
    · rw [fine_offsets_append, List.map_append, ← e3, ← e1, ← i3]
      simp [timestamps]
    · rw [fine_offsets_append, List.map_append, getLast?_getD_append, ← e4, ← e1, ← i4]

theorem chain_add_left (b a : Int) (l : List Int) (h : List.Chain (· ≤ ·) (a - b) l) :
    List.Chain (· ≤ ·) a (l.map (fun f => b + f)) := by
  induction l generalizing a with
  | nil => exact List.Chain.nil
  | cons c l ih =>
    rw [List.chain_cons] at h
    rw [List.map_cons, List.chain_cons]
    refine ⟨by omega, ih (b + c) ?_⟩
    have e : b + c - b = c := by omega
    rw [e]
    exact h.2

theorem MaxTimestamp_eq :
    MaxTimestamp F = ((2 : Int) ^ 28 - 1) * 2 ^ F.EVT2EventsTimeStampBits := by
  unfold MaxTimestamp NumBitsInTimestampLSB
  rw [Nat.shiftLeft_eq]
  push_cast
  norm_num

theorem decode_event_time_high_out (ul ap : Bool) (s : EVT2Decoder) (ev : RawEvent)
    (h : isTimeHigh F ev = true) :
    (decode_event F ul ap s ev).2 = [] ∧
    (decode_event F ul ap s ev).1.last_timestamp_ = s.last_timestamp_ := by
  unfold decode_event
  simp only [h, if_true]
  split_ifs <;> exact ⟨rfl, rfl⟩

theorem find_first_time_high_cons_time_high (ts : Bool) (s : EVT2Decoder) (ev : RawEvent)
    (rest : List RawEvent) (h : isTimeHigh F ev = true) :
    (find_first_time_high F ts s (ev :: rest)).2 = ev :: rest := by
  simp [find_first_time_high, h]

theorem any_eq_false_of_find?_eq_none (buf : List RawEvent)
    (h : buf.find? (isTimeHigh F) = none) : buf.any (isTimeHigh F) = false := by
  induction buf with
  | nil => rfl
  | cons ev buf ih =>
    by_cases hth : isTimeHigh F ev = true
    · simp [List.find?, hth] at h
    · have hf : isTimeHigh F ev = false := by simpa using hth
      rw [List.find?, hf] at h
      simp [hf, ih h]

theorem find_first_time_high_find? (ts : Bool) (s : EVT2Decoder) (buf : List RawEvent)
    (w : RawEvent) (h : buf.find? (isTimeHigh F) = some w) :
    (find_first_time_high F ts s buf).1.base_time_set_ = true ∧
    (find_first_time_high F ts s buf).1.shift_th_ = (if ts then coarse F w else 0) := by
  induction buf with
  | nil => simp at h
  | cons ev buf ih =>
    by_cases hth : isTimeHigh F ev = true
    · have hw : ev = w := by simpa [List.find?, hth] using h
      subst hw
      simp [find_first_time_high, hth]
    · have hf : isTimeHigh F ev = false := by simpa using hth
      rw [List.find?, hf] at h
      simpa [find_first_time_high, hf] using ih h

theorem decode_impl_get_timestamp_shift_of_set (ts : Bool) (s : EVT2Decoder)
    (buf : List RawEvent) (hs : s.base_time_set_ = true) :
    get_timestamp_shift (decode_impl F ts s buf).1 = get_timestamp_shift s := by
  unfold get_timestamp_shift
  rw [decode_impl_of_set F ts s buf hs, decode_dispatch_base_time_set, decode_dispatch_shift_th]

theorem decode_calls_get_timestamp_shift_of_set (ts : Bool) (s : EVT2Decoder)
    (bufs : List (List RawEvent)) (hs : s.base_time_set_ = true) :
    get_timestamp_shift (decode_calls F ts s bufs).1 = get_timestamp_shift s := by
  induction bufs generalizing s with
  | nil => rfl
  | cons buf bufs ih =>
    simp only [decode_calls]
    rw [ih _ (decode_impl_base_time_set_of_set F ts s buf hs),
      decode_impl_get_timestamp_shift_of_set F ts s buf hs]

/-- The first TIME_HIGH word met by a decoder that has no base time yet fixes
what `get_timestamp_shift` reports from then on. -/
theorem decode_calls_first_time_high (ts : Bool) (s : EVT2Decoder)
    (bufs : List (List RawEvent)) (w : RawEvent) (hs : s.base_time_set_ = false)
    (hw : bufs.flatten.find? (isTimeHigh F) = some w) :
    get_timestamp_shift (decode_calls F ts s bufs).1 =
      (true, if ts then coarse F w else 0) := by
  induction bufs with
  | nil => simp at hw
  | cons buf bufs ih =>
    simp only [decode_calls]
    rw [List.flatten_cons, List.find?_append] at hw
    cases hb : buf.find? (isTimeHigh F) with
    | none =>
      rw [hb] at hw
      rw [decode_impl_not_set_none F ts s buf hs (any_eq_false_of_find?_eq_none F buf hb)]
      exact ih (by simpa using hw)
    | some w2 =>
      rw [hb] at hw
      have hw2 : w2 = w := by simpa using hw
      subst hw2
      obtain ⟨f1, f2⟩ := find_first_time_high_find? F ts s buf w2 hb
      have h1 : get_timestamp_shift (decode_impl F ts s buf).1 =
          (true, if ts then coarse F w2 else 0) := by
        unfold get_timestamp_shift decode_impl
        rw [decode_dispatch_base_time_set, decode_dispatch_shift_th,
          init_base_time_of_not_set F ts s buf hs, f1, f2]
      have h2 : (decode_impl F ts s buf).1.base_time_set_ = true := by
        have := congrArg Prod.fst h1
        simpa [get_timestamp_shift] using this
      rw [decode_calls_get_timestamp_shift_of_set F ts _ bufs h2, h1]

theorem last_coarse_append (c : Int) (A B : List RawEvent) :
    last_coarse F c (A ++ B) = last_coarse F (last_coarse F c A) B := by
  induction A generalizing c with
  | nil => rfl
  | cons ev A ih => simp [last_coarse, ih]

theorem coarse_nondecreasing_append (c : Int) (A B : List RawEvent) :
    coarse_nondecreasing F c (A ++ B) =
      (coarse_nondecreasing F c A && coarse_nondecreasing F (last_coarse F c A) B) := by
  induction A generalizing c with
  | nil => simp [coarse_nondecreasing, last_coarse]
  | cons ev A ih =>
    by_cases hth : isTimeHigh F ev = true
    · simp [coarse_nondecreasing, last_coarse, hth, ih, Bool.and_assoc]
    · simp [coarse_nondecreasing, last_coarse, hth, ih]

theorem wire_timestamps_append (c : Int) (A B : List RawEvent) :
    wire_timestamps F c (A ++ B) =
      wire_timestamps F c A ++ wire_timestamps F (last_coarse F c A) B := by
  induction A generalizing c with
  | nil => simp [wire_timestamps, last_coarse]
  | cons ev A ih =>
    by_cases hth : isTimeHigh F ev = true
    · simp [wire_timestamps, last_coarse, hth, ih]
    · simp [wire_timestamps, last_coarse, hth, ih]

/-- Decoding with `decode_events_buffer<true, true>` a range whose coarse values
never decrease, starting from `base_time_ - full_shift_`: no wraparound is
found, `full_shift_` is unchanged, `base_time_` follows the coarse value, and
each forwarded timestamp is the on-wire timestamp plus `full_shift_`. -/
theorem decode_events_buffer_coarse_nondecreasing (s : EVT2Decoder) (buf : List RawEvent)
    (h : coarse_nondecreasing F (s.base_time_ - s.full_shift_) buf = true) :
    loop_found F s buf = false ∧
    (decode_events_buffer F true true s buf).1.full_shift_ = s.full_shift_ ∧
    (decode_events_buffer F true true s buf).1.base_time_ =
      last_coarse F (s.base_time_ - s.full_shift_) buf + s.full_shift_ ∧
    timestamps (decode_events_buffer F true true s buf).2 =
      (wire_timestamps F (s.base_time_ - s.full_shift_) buf).map
        (fun t => s.full_shift_ + t) ∧
    (decode_events_buffer F true true s buf).1.last_timestamp_ =
      (((wire_timestamps F (s.base_time_ - s.full_shift_) buf).map
        (fun t => s.full_shift_ + t)).getLast?).getD s.last_timestamp_ := by
  induction buf generalizing s with
  | nil => simp [loop_found, decode_events_buffer, last_coarse, wire_timestamps, timestamps]
  | cons ev buf ih =>
    by_cases hth : isTimeHigh F ev = true
    · simp only [coarse_nondecreasing, hth, if_true, Bool.and_eq_true, decide_eq_true_eq] at h
      have hloop : has_time_loop F (coarse F ev + s.full_shift_) s.base_time_ = false := by
        unfold has_time_loop
        simp only [Bool.and_eq_false_iff, decide_eq_false_iff_not]
        left
        omega
      have hev : decode_event F true true s ev =
          ({ s with base_time_ := coarse F ev + s.full_shift_ }, []) := by
        simp [decode_event, hth, hloop]
      have hc : ({ s with base_time_ := coarse F ev + s.full_shift_ } : EVT2Decoder).base_time_ -
          ({ s with base_time_ := coarse F ev + s.full_shift_ } : EVT2Decoder).full_shift_ =
          coarse F ev := by
        simp
      have i := ih { s with base_time_ := coarse F ev + s.full_shift_ } (by rw [hc]; exact h.2)
      rw [hc] at i
      obtain ⟨i0, i1, i2, i3, i4⟩ := i
      simp only [loop_found, decode_events_buffer, hev, hth, hloop, last_coarse, wire_timestamps,
        if_true, Bool.and_false, Bool.false_or, List.nil_append]
      exact ⟨i0, i1, i2, i3, i4⟩
    · have hf : isTimeHigh F ev = false := by simpa using hth
      simp only [coarse_nondecreasing, hf, Bool.false_eq_true, if_false] at h
      obtain ⟨e1, e2, e3, e4⟩ := decode_event_not_time_high F true true s ev hf
      have i := ih (decode_event F true true s ev).1 (by rw [e1, e2]; exact h)
      rw [e1, e2] at i
      obtain ⟨i0, i1, i2, i3, i4⟩ := i
      have hmap : ((fine_offsets F [ev]).map (fun f => s.base_time_ - s.full_shift_ + f)).map
          (fun t => s.full_shift_ + t) = (fine_offsets F [ev]).map (fun f => s.base_time_ + f) := by
        rw [List.map_map]
        apply List.map_congr_left
        intro a _
        simp only [Function.comp]
        omega
      simp only [loop_found, decode_events_buffer, hf, last_coarse, wire_timestamps,
        Bool.false_eq_true, if_false, Bool.false_and, Bool.false_or, List.map_append, hmap]
      refine ⟨i0, i1, i2, ?_, ?_⟩
      · rw [← e3, ← i3]
        simp [timestamps]
      · rw [getLast?_getD_append, ← e4, ← i4]

/-- The statement of `decode_events_buffer_coarse_nondecreasing` for a sequence
of decode calls on a decoder that has its base time. -/
theorem decode_calls_coarse_nondecreasing (ts : Bool) (s : EVT2Decoder)
    (bufs : List (List RawEvent)) (hs : s.base_time_set_ = true)
    (h : coarse_nondecreasing F (s.base_time_ - s.full_shift_) bufs.flatten = true) :
    (decode_calls F ts s bufs).1.full_shift_ = s.full_shift_ ∧
    timestamps (decode_calls F ts s bufs).2 =
      (wire_timestamps F (s.base_time_ - s.full_shift_) bufs.flatten).map
        (fun t => s.full_shift_ + t) ∧
    (decode_calls F ts s bufs).1.last_timestamp_ =
      (((wire_timestamps F (s.base_time_ - s.full_shift_) bufs.flatten).map
        (fun t => s.full_shift_ + t)).getLast?).getD s.last_timestamp_ := by
  induction bufs generalizing s with
  | nil => simp [decode_calls, wire_timestamps, timestamps]
  | cons buf bufs ih =>
    rw [List.flatten_cons, coarse_nondecreasing_append, Bool.and_eq_true] at h
    obtain ⟨e0, e1, e2, e3, e4⟩ := decode_events_buffer_coarse_nondecreasing F s buf h.1
    have hd : decode_impl F ts s buf = decode_events_buffer F true true s buf := by
      rw [decode_impl_of_set F ts s buf hs]
      exact decode_dispatch_eq_loop F s buf (by simp [e0])
    rw [← hd] at e1 e2 e3 e4
    have hs1 := decode_impl_base_time_set_of_set F ts s buf hs
    have hc : (decode_impl F ts s buf).1.base_time_ - (decode_impl F ts s buf).1.full_shift_ =
        last_coarse F (s.base_time_ - s.full_shift_) buf := by
      rw [e1, e2]
      omega
    have i := ih (decode_impl F ts s buf).1 hs1 (by rw [hc]; exact h.2)
    rw [hc, e1] at i
    obtain ⟨i1, i3, i4⟩ := i
    simp only [decode_calls, List.flatten_cons, wire_timestamps_append, List.map_append]
    refine ⟨i1, ?_, ?_⟩
    · rw [← e3, ← i3]
      simp [timestamps]
    · rw [getLast?_getD_append, ← e4, ← i4]

theorem handled_tag_of_time_high (ev : RawEvent) (h : isTimeHigh F ev = true) :
    handled_tag F ev = true := by
  unfold isTimeHigh at h
  simp [handled_tag, h]

theorem decode_event_other_tag (ul ap : Bool) (s : EVT2Decoder) (ev : RawEvent)
    (h : handled_tag F ev = false) : decode_event F ul ap s ev = (s, []) := by
  unfold handled_tag at h
  simp only [Bool.or_eq_false_iff] at h
  obtain ⟨⟨⟨h1, h2⟩, h3⟩, h4⟩ := h
  simp [decode_event, isTimeHigh, h1, h2, h3, h4]

theorem decode_events_buffer_drop_other_tags (ul ap : Bool) (s : EVT2Decoder)
    (buf : List RawEvent) :
    decode_events_buffer F ul ap s (drop_other_tags F buf) =
      decode_events_buffer F ul ap s buf := by
  unfold drop_other_tags
  induction buf generalizing s with
  | nil => rfl
  | cons ev buf ih =>
    by_cases h : handled_tag F ev = true
    · simp only [List.filter_cons, h, if_true, decode_events_buffer, ih]
    · have hf : handled_tag F ev = false := by simpa using h
      simp only [List.filter_cons, hf, Bool.false_eq_true, if_false, decode_events_buffer, ih,
        decode_event_other_tag F ul ap s ev hf, List.nil_append]

theorem buffer_has_time_loop_rev_filter (b t : Int) (l : List RawEvent) :
    buffer_has_time_loop_rev F b t (l.filter (handled_tag F)) =
      buffer_has_time_loop_rev F b t l := by
  induction l with
  | nil => rfl
  | cons ev l ih =>
    by_cases h : handled_tag F ev = true
    · simp only [List.filter_cons, h, if_true, buffer_has_time_loop_rev, ih]
    · have hf : handled_tag F ev = false := by simpa using h
      have hth : isTimeHigh F ev = false := by
        cases hx : isTimeHigh F ev with
        | false => rfl
        | true => rw [handled_tag_of_time_high F ev hx] at hf; exact absurd hf (by simp)
      simp only [List.filter_cons, hf, Bool.false_eq_true, if_false, buffer_has_time_loop_rev,
        hth, ih]

theorem buffer_has_time_loop_drop_other_tags (b t : Int) (buf : List RawEvent) :
    buffer_has_time_loop F (drop_other_tags F buf) b t = buffer_has_time_loop F buf b t := by
  unfold buffer_has_time_loop drop_other_tags
  rw [← List.filter_reverse, buffer_has_time_loop_rev_filter]

theorem decode_dispatch_drop_other_tags (s : EVT2Decoder) (buf : List RawEvent) :
    decode_dispatch F s (drop_other_tags F buf) = decode_dispatch F s buf := by
  unfold decode_dispatch
  simp only [buffer_has_time_loop_drop_other_tags, decode_events_buffer_drop_other_tags]

theorem find_first_time_high_drop_other_tags (ts : Bool) (s : EVT2Decoder)
    (buf : List RawEvent) :
    find_first_time_high F ts s (drop_other_tags F buf) =
      ((find_first_time_high F ts s buf).1,
        drop_other_tags F (find_first_time_high F ts s buf).2) := by
  unfold drop_other_tags
  induction buf with
  | nil => rfl
  | cons ev buf ih =>
    by_cases hth : isTimeHigh F ev = true
    · have h := handled_tag_of_time_high F ev hth
      simp [List.filter_cons, h, find_first_time_high, hth]
    · have hf : isTimeHigh F ev = false := by simpa using hth
      by_cases h : handled_tag F ev = true
      · simp only [List.filter_cons, h, if_true, find_first_time_high, hf, Bool.false_eq_true,
          if_false, ih]
      · have h0 : handled_tag F ev = false := by simpa using h
        simp only [List.filter_cons, h0, Bool.false_eq_true, if_false, find_first_time_high, hf,
          ih]

theorem decode_impl_drop_other_tags (ts : Bool) (s : EVT2Decoder) (buf : List RawEvent) :
    decode_impl F ts s (drop_other_tags F buf) = decode_impl F ts s buf := by
  unfold decode_impl init_base_time
  split_ifs
  · rw [find_first_time_high_drop_other_tags]
    exact decode_dispatch_drop_other_tags F _ _
  · exact decode_dispatch_drop_other_tags F _ _

theorem decode_impl_nil (ts : Bool) (s : EVT2Decoder) : decode_impl F ts s [] = (s, []) := by
  unfold decode_impl init_base_time
  split_ifs <;> exact decode_dispatch_nil F s

theorem toUShort_of_lt (v : Nat) (h : v < 2 ^ 16) : toUShort v = v := by
  unfold toUShort
  exact Nat.mod_eq_of_lt (by simpa using h)

theorem toShort_of_lt (v : Nat) (h : v < 2 ^ 15) : toShort v = (v : Int) := by
  have h1 : v < 32768 := by simpa using h
  have h2 : v % 65536 = v := Nat.mod_eq_of_lt (by omega)
  unfold toShort
  rw [h2]
  simp [h1]

/-- A word that is not a TIME_HIGH word forwards what the spec says, when its
fields fit and the low bit of the two CD tags is the polarity. -/
theorem decode_event_eq_expected (ul ap : Bool) (s : EVT2Decoder) (ev : RawEvent)
    (hth : isTimeHigh F ev = false) (hfit : fields_fit F ev = true)
    (hlow : F.LEFT_TD_LOW % 2 = 0) (hhigh : F.LEFT_TD_HIGH % 2 = 1) :
    (decode_event F ul ap s ev).2 = expected_event F s.base_time_ ev := by
  unfold fields_fit at hfit
  simp only [Bool.and_eq_true, decide_eq_true_eq] at hfit
  obtain ⟨⟨⟨⟨⟨_, _⟩, hx⟩, hy⟩, hv⟩, hi⟩ := hfit
  unfold decode_event expected_event isTrigger isCD
  simp only [hth, Bool.false_eq_true, if_false, Bool.not_false, Bool.true_and]
  by_cases h1 : (ev.type == F.LEFT_TD_LOW || ev.type == F.LEFT_TD_HIGH) = true
  · simp only [h1, if_true]
    have hp : ev.type % 2 = if ev.type = F.LEFT_TD_HIGH then 1 else 0 := by
      simp only [Bool.or_eq_true, beq_iff_eq] at h1
      by_cases hh : ev.type = F.LEFT_TD_HIGH
      · simp [hh, hhigh]
      · rcases h1 with h1 | h1
        · rw [if_neg hh, h1]
          exact hlow
        · exact absurd h1 hh
    rw [toUShort_of_lt ev.x hx, toUShort_of_lt ev.y hy, hp]
  · have h1f : (ev.type == F.LEFT_TD_LOW || ev.type == F.LEFT_TD_HIGH) = false := by
      simpa using h1
    simp only [h1f, Bool.false_eq_true, if_false, Bool.not_false, Bool.true_and]
    by_cases h2 : (ev.type == F.EXT_TRIGGER) = true
    · simp only [h2, if_true]
      rw [toShort_of_lt ev.value hv, toShort_of_lt ev.id hi]
    · simp [h2]

theorem decode_events_buffer_eq_expected (ul ap : Bool) (s : EVT2Decoder)
    (buf : List RawEvent) (hth : buf.any (isTimeHigh F) = false)
    (hfit : ∀ ev ∈ buf, fields_fit F ev = true)
    (hlow : F.LEFT_TD_LOW % 2 = 0) (hhigh : F.LEFT_TD_HIGH % 2 = 1) :
    (decode_events_buffer F ul ap s buf).2 = expected_events F s.base_time_ buf := by
  induction buf generalizing s with
  | nil => rfl
  | cons ev buf ih =>
    simp only [List.any_cons, Bool.or_eq_false_iff] at hth
    have h1 := decode_event_eq_expected F ul ap s ev hth.1
      (hfit ev (List.mem_cons_self _ _)) hlow hhigh
    have hb := (decode_event_not_time_high F ul ap s ev hth.1).1
    have h2 := ih (decode_event F ul ap s ev).1 hth.2
      (fun e he => hfit e (List.mem_cons_of_mem _ he))
    simp only [decode_events_buffer, h1, h2, hb, expected_events, List.map_cons,
      List.flatten_cons]

theorem cd_events_append (l1 l2 : List Forwarded) :
    cd_events (l1 ++ l2) = cd_events l1 ++ cd_events l2 := by
  simp [cd_events]

theorem trigger_events_append (l1 l2 : List Forwarded) :
    trigger_events (l1 ++ l2) = trigger_events l1 ++ trigger_events l2 := by
  simp [trigger_events]

theorem isTrigger_of_isCD (ev : RawEvent) (h : isCD F ev = true) : isTrigger F ev = false := by
  simp [isTrigger, h]

/-- One CD event per CD word, one trigger event per trigger word. -/
theorem expected_events_count (b : Int) (buf : List RawEvent) :
    (cd_events (expected_events F b buf)).length = (buf.filter (isCD F)).length ∧
    (trigger_events (expected_events F b buf)).length = (buf.filter (isTrigger F)).length := by
  induction buf with
  | nil => exact ⟨rfl, rfl⟩
  | cons ev buf ih =>
    have e : expected_events F b (ev :: buf) =
        expected_event F b ev ++ expected_events F b buf := by
      simp [expected_events]
    rw [e, cd_events_append, trigger_events_append, List.length_append, List.length_append,
      ih.1, ih.2]
    by_cases h1 : isCD F ev = true
    · have h2 := isTrigger_of_isCD F ev h1
      simp [expected_event, h1, h2, cd_events, trigger_events, List.filter_cons]
      omega
    · have h1f : isCD F ev = false := by simpa using h1
      by_cases h2 : isTrigger F ev = true
      · simp [expected_event, h1f, h2, cd_events, trigger_events, List.filter_cons]
        omega
      · have h2f : isTrigger F ev = false := by simpa using h2
        simp [expected_event, h1f, h2f, cd_events, trigger_events, List.filter_cons]

theorem fine_offsets_bound (buf : List RawEvent) (hfit : ∀ ev ∈ buf, fields_fit F ev = true)
    (f : Int) (hf : f ∈ fine_offsets F buf) :
    0 ≤ f ∧ f ≤ (2 : Int) ^ NumBitsInTimestampLSB F - 1 := by
  unfold fine_offsets at hf
  rw [List.mem_map] at hf
  obtain ⟨ev, hev, rfl⟩ := hf
  have hmem : ev ∈ buf := (List.mem_filter.mp hev).1
  have h := hfit ev hmem
  unfold fields_fit at h
  simp only [Bool.and_eq_true, decide_eq_true_eq] at h
  obtain ⟨⟨⟨⟨⟨_, ht⟩, _⟩, _⟩, _⟩, _⟩ := h
  have ht2 : ((ev.timestamp : Nat) : Int) < (2 : Int) ^ NumBitsInTimestampLSB F := by
    exact_mod_cast ht
  constructor
  · exact Int.ofNat_nonneg _
  · omega

theorem delivered_all (out : List Forwarded) : delivered true true out = out := by
  unfold delivered
  rw [List.filter_eq_self]
  intro e _
  cases e <;> rfl

theorem cd_events_delivered_no_cd_sink (tr : Bool) (out : List Forwarded) :
    cd_events (delivered false tr out) = [] := by
  unfold cd_events delivered
  rw [List.filter_filter, List.filter_eq_nil_iff]
  intro e _
  cases e <;> simp

theorem trigger_events_delivered (cd : Bool) (out : List Forwarded) :
    trigger_events (delivered cd true out) = trigger_events out := by
  unfold trigger_events delivered
  rw [List.filter_filter]
  apply List.filter_congr
  intro e _
  cases e <;> simp

theorem isTimeHigh_of_isCD (ev : RawEvent) (h : isCD F ev = true) : isTimeHigh F ev = false := by
  unfold isCD at h
  simp only [Bool.and_eq_true, Bool.not_eq_true'] at h
  exact h.1

theorem decode_event_cd (ul ap : Bool) (s : EVT2Decoder) (ev : RawEvent)
    (h : isCD F ev = true) :
    delivered false true (decode_event F ul ap s ev).2 = [] ∧
    (decode_event F ul ap s ev).1.last_timestamp_ = s.base_time_ + (ev.timestamp : Int) := by
  have hth := isTimeHigh_of_isCD F ev h
  unfold isCD at h
  simp only [hth, Bool.not_false, Bool.true_and] at h
  simp [decode_event, hth, h, delivered]

theorem buffer_has_time_loop_rev_append (b t : Int) (l1 l2 : List RawEvent) :
    buffer_has_time_loop_rev F b t (l1 ++ l2) =
      if l1.any (isTimeHigh F) then buffer_has_time_loop_rev F b t l1
      else buffer_has_time_loop_rev F b t l2 := by
  induction l1 with
  | nil => simp
  | cons ev l1 ih =>
    by_cases hth : isTimeHigh F ev = true
    · simp [buffer_has_time_loop_rev, hth]
    · simp [buffer_has_time_loop_rev, hth, ih]

theorem buffer_has_time_loop_rev_no_time_high (b t : Int) (l : List RawEvent)
    (h : l.any (isTimeHigh F) = false) : buffer_has_time_loop_rev F b t l = false := by
  induction l with
  | nil => rfl
  | cons ev l ih =>
    simp only [List.any_cons, Bool.or_eq_false_iff] at h
    simp [buffer_has_time_loop_rev, h.1, ih h.2]

theorem loop_found_no_time_high (s : EVT2Decoder) (buf : List RawEvent)
    (h : buf.any (isTimeHigh F) = false) : loop_found F s buf = false := by
  induction buf generalizing s with
  | nil => rfl
  | cons ev buf ih =>
    simp only [List.any_cons, Bool.or_eq_false_iff] at h
    simp [loop_found, h.1, ih _ h.2]

theorem any_eq_false_of_filter_length_zero (buf : List RawEvent)
    (h : (buf.filter (isTimeHigh F)).length = 0) : buf.any (isTimeHigh F) = false := by
  rw [List.length_eq_zero, List.filter_eq_nil_iff] at h
  rw [List.any_eq_false]
  exact h

/-- On a range that holds at most one TIME_HIGH word the pre-scan is exact. -/
theorem buffer_has_time_loop_eq_loop_found (s : EVT2Decoder) (buf : List RawEvent)
    (h : (buf.filter (isTimeHigh F)).length ≤ 1) :
    buffer_has_time_loop F buf s.base_time_ s.full_shift_ = loop_found F s buf := by
  induction buf generalizing s with
  | nil => rfl
  | cons ev buf ih =>
    unfold buffer_has_time_loop
    rw [List.reverse_cons, buffer_has_time_loop_rev_append]
    by_cases hth : isTimeHigh F ev = true
    · have hrest : buf.any (isTimeHigh F) = false := by
        apply any_eq_false_of_filter_length_zero
        simp only [List.filter_cons, hth, if_true, List.length_cons] at h
        omega
      simp [List.any_reverse, hrest, buffer_has_time_loop_rev, hth, loop_found,
        loop_found_no_time_high F _ buf hrest]
    · have hf : isTimeHigh F ev = false := by simpa using hth
      have hlen : (buf.filter (isTimeHigh F)).length ≤ 1 := by
        simpa [List.filter_cons, hf] using h
      obtain ⟨e1, e2, _, _⟩ := decode_event_not_time_high F true true s ev hf
      have i := ih (decode_event F true true s ev).1 hlen
      rw [e1, e2] at i
      unfold buffer_has_time_loop at i
      simp only [loop_found, hf, Bool.false_and, Bool.false_or, ← i, List.any_reverse]
      by_cases hany : buf.any (isTimeHigh F) = true
      · simp [hany]
      · have hany0 : buf.any (isTimeHigh F) = false := by simpa using hany
        simp [hany0, buffer_has_time_loop_rev, hf,
          buffer_has_time_loop_rev_no_time_high F _ _ buf.reverse
            (by rw [List.any_reverse]; exact hany0)]

theorem TimeLoop_eq : TimeLoop F = (2 : Int) ^ (28 + F.EVT2EventsTimeStampBits) := by
  unfold TimeLoop
  rw [MaxTimestamp_eq]
  unfold NumBitsInTimestampLSB
  rw [Nat.shiftLeft_eq, pow_add]
  push_cast
  ring

theorem one_shiftLeft_cast :
    ((1 <<< NumBitsInTimestampLSB F : Nat) : Int) = (2 : Int) ^ F.EVT2EventsTimeStampBits := by
  unfold NumBitsInTimestampLSB
  rw [Nat.shiftLeft_eq]
  push_cast
  ring

theorem coarse_eq (ev : RawEvent) :
    coarse F ev = (ev.trail : Int) * (2 : Int) ^ F.EVT2EventsTimeStampBits := by
  unfold coarse NumBitsInTimestampLSB
  rw [Nat.shiftLeft_eq]
  push_cast
  ring

theorem coarse_nonneg (ev : RawEvent) : 0 ≤ coarse F ev := by
  unfold coarse
  exact Int.ofNat_nonneg _

theorem coarse_le_MaxTimestamp (ev : RawEvent) (h : ev.trail < 2 ^ 28) :
    coarse F ev ≤ MaxTimestamp F := by
  rw [coarse_eq, MaxTimestamp_eq]
  have h1 : (ev.trail : Int) ≤ (2 : Int) ^ 28 - 1 := by
    have : ((ev.trail : Nat) : Int) < (2 : Int) ^ 28 := by exact_mod_cast h
    omega
  exact mul_le_mul_of_nonneg_right h1 (by positivity)

theorem TimeLoop_eq_add : TimeLoop F = MaxTimestamp F + (2 : Int) ^ F.EVT2EventsTimeStampBits := by
  unfold TimeLoop
  rw [one_shiftLeft_cast]

theorem TimeLoop_pos : 0 < TimeLoop F := by
  rw [TimeLoop_eq]
  positivity

theorem decode_events_buffer_no_loop_full_shift (s : EVT2Decoder) (buf : List RawEvent)
    (h : loop_found F s buf = false) :
    (decode_events_buffer F true true s buf).1.full_shift_ = s.full_shift_ := by
  rw [decode_events_buffer_no_loop F s buf h]
  induction buf generalizing s with
  | nil => rfl
  | cons ev buf ih =>
    simp only [loop_found, Bool.or_eq_false_iff] at h
    simp only [decode_events_buffer]
    rw [decode_event_no_loop F s ev h.1] at h
    rw [ih _ h.2, decode_event_full_shift]

/-- In each instance the dispatch can select (`<false, false>` only when
`full_shift_ = 0`), one word keeps `base_time_ - full_shift_` equal to the
coarse value in effect. -/
theorem decode_event_tracks (ul ap : Bool) (s : EVT2Decoder) (ev : RawEvent)
    (hmode : ul = true ∨ ap = true ∨ s.full_shift_ = 0) :
    (decode_event F ul ap s ev).1.base_time_ - (decode_event F ul ap s ev).1.full_shift_ =
      (if isTimeHigh F ev then coarse F ev else s.base_time_ - s.full_shift_) ∧
    (ul = true ∨ ap = true ∨ (decode_event F ul ap s ev).1.full_shift_ = 0) := by
  by_cases hth : isTimeHigh F ev = true
  · cases ul with
    | true =>
      refine ⟨?_, Or.inl rfl⟩
      by_cases hl : has_time_loop F (coarse F ev + s.full_shift_) s.base_time_ = true
      · simp [decode_event, hth, hl]
      · simp [decode_event, hth, hl]
    | false =>
      cases ap with
      | true =>
        refine ⟨?_, Or.inr (Or.inl rfl)⟩
        simp [decode_event, hth]
      | false =>
        have h0 : s.full_shift_ = 0 := by
          rcases hmode with h | h | h
          · exact absurd h (by simp)
          · exact absurd h (by simp)
          · exact h
        refine ⟨?_, Or.inr (Or.inr ?_)⟩
        · simp [decode_event, hth, h0]
        · simp [decode_event, hth, h0]
  · have hf : isTimeHigh F ev = false := by simpa using hth
    obtain ⟨e1, e2, _, _⟩ := decode_event_not_time_high F ul ap s ev hf
    rw [e1, e2]
    simp only [hf, Bool.false_eq_true, if_false, true_and]
    exact hmode

theorem decode_events_buffer_tracks (ul ap : Bool) (s : EVT2Decoder) (buf : List RawEvent)
    (hmode : ul = true ∨ ap = true ∨ s.full_shift_ = 0) :
    (decode_events_buffer F ul ap s buf).1.base_time_ -
        (decode_events_buffer F ul ap s buf).1.full_shift_ =
      last_coarse F (s.base_time_ - s.full_shift_) buf := by
  induction buf generalizing s with
  | nil => rfl
  | cons ev buf ih =>
    obtain ⟨e1, e2⟩ := decode_event_tracks F ul ap s ev hmode
    simp only [decode_events_buffer, last_coarse]
    rw [ih _ e2, e1]

theorem decode_dispatch_tracks (s : EVT2Decoder) (buf : List RawEvent) :
    (decode_dispatch F s buf).1.base_time_ - (decode_dispatch F s buf).1.full_shift_ =
      last_coarse F (s.base_time_ - s.full_shift_) buf := by
  unfold decode_dispatch
  split_ifs with h1 h2
  · exact decode_events_buffer_tracks F false false s buf
      (Or.inr (Or.inr (by simpa using h2)))
  · exact decode_events_buffer_tracks F false true s buf (Or.inr (Or.inl rfl))
  · exact decode_events_buffer_tracks F true true s buf (Or.inl rfl)

theorem find_first_time_high_last_coarse (ts : Bool) (s : EVT2Decoder) (buf : List RawEvent)
    (h : buf.any (isTimeHigh F) = true) (c c2 : Int) :
    last_coarse F c2 (find_first_time_high F ts s buf).2 = last_coarse F c buf := by
  induction buf with
  | nil => simp at h
  | cons ev buf ih =>
    by_cases hth : isTimeHigh F ev = true
    · simp [find_first_time_high, last_coarse, hth]
    · have hf : isTimeHigh F ev = false := by simpa using hth
      have hA : buf.any (isTimeHigh F) = true := by simpa [List.any_cons, hf] using h
      simp only [find_first_time_high, last_coarse, hf, Bool.false_eq_true, if_false]
      exact ih hA

/-- One decode call keeps `base_time_ - full_shift_` equal to the coarse value
in effect, from a state where it is (`c` is arbitrary when the decoder has no
base time yet). -/
theorem decode_impl_tracks (ts : Bool) (s : EVT2Decoder) (buf : List RawEvent) (c : Int)
    (hinv : s.base_time_set_ = true → s.base_time_ - s.full_shift_ = c)
    (hset : (decode_impl F ts s buf).1.base_time_set_ = true) :
    (decode_impl F ts s buf).1.base_time_ - (decode_impl F ts s buf).1.full_shift_ =
      last_coarse F c buf := by
  by_cases hs : s.base_time_set_ = true
  · rw [decode_impl_of_set F ts s buf hs, decode_dispatch_tracks, hinv hs]
  · have hs0 : s.base_time_set_ = false := by simpa using hs
    by_cases hth : buf.any (isTimeHigh F) = true
    · unfold decode_impl
      rw [decode_dispatch_tracks, init_base_time_of_not_set F ts s buf hs0]
      exact find_first_time_high_last_coarse F ts s buf hth c _
    · have hth0 : buf.any (isTimeHigh F) = false := by simpa using hth
      rw [decode_impl_not_set_none F ts s buf hs0 hth0] at hset
      exact absurd hset hs

theorem decode_calls_tracks (ts : Bool) (s : EVT2Decoder) (bufs : List (List RawEvent))
    (c : Int) (hinv : s.base_time_set_ = true → s.base_time_ - s.full_shift_ = c)
    (hset : (decode_calls F ts s bufs).1.base_time_set_ = true) :
    (decode_calls F ts s bufs).1.base_time_ - (decode_calls F ts s bufs).1.full_shift_ =
      last_coarse F c bufs.flatten := by
  induction bufs generalizing s c with
  | nil => exact hinv hset
  | cons buf bufs ih =>
    simp only [decode_calls, List.flatten_cons, last_coarse_append] at hset ⊢
    exact ih (decode_impl F ts s buf).1 (last_coarse F c buf)
      (fun h => decode_impl_tracks F ts s buf c hinv h) hset

theorem last_coarse_eq_find? (c : Int) (buf : List RawEvent) :
    last_coarse F c buf = ((buf.reverse.find? (isTimeHigh F)).map (coarse F)).getD c := by
  induction buf generalizing c with
  | nil => rfl
  | cons ev buf ih =>
    rw [last_coarse, ih, List.reverse_cons, List.find?_append]
    cases hr : buf.reverse.find? (isTimeHigh F) with
    | some w => simp
    | none =>
      by_cases hth : isTimeHigh F ev = true
      · simp [List.find?, hth]
      · simp [List.find?, hth]

theorem decode_calls_not_set_none (ts : Bool) (s : EVT2Decoder) (bufs : List (List RawEvent))
    (hs : s.base_time_set_ = false) (h : bufs.flatten.any (isTimeHigh F) = false) :
    decode_calls F ts s bufs = (s, []) := by
  induction bufs with
  | nil => rfl
  | cons buf bufs ih =>
    rw [List.flatten_cons, List.any_append, Bool.or_eq_false_iff] at h
    simp only [decode_calls, decode_impl_not_set_none F ts s buf hs h.1, ih h.2,
      List.append_nil]

theorem any_eq_false_of_reverse_find?_eq_none (buf : List RawEvent)
    (h : buf.reverse.find? (isTimeHigh F) = none) : buf.any (isTimeHigh F) = false := by
  rw [← List.any_reverse]
  exact any_eq_false_of_find?_eq_none F buf.reverse h

theorem reverse_find?_time_high (buf : List RawEvent) (w : RawEvent)
    (h : buf.reverse.find? (isTimeHigh F) = some w) : w ∈ buf ∧ isTimeHigh F w = true := by
  have h1 := List.mem_of_find?_eq_some h
  have h2 := List.find?_some h
  exact ⟨List.mem_reverse.mp h1, h2⟩

theorem decode_event_full_shift_grows (ul ap : Bool) (s : EVT2Decoder) (ev : RawEvent) :
    ∃ j : ℕ, (decode_event F ul ap s ev).1.full_shift_ = s.full_shift_ + (j : Int) * TimeLoop F := by
  unfold decode_event
  dsimp only
  split_ifs
  · exact ⟨1, by simp⟩
  all_goals exact ⟨0, by simp⟩

theorem decode_events_buffer_full_shift_grows (ul ap : Bool) (s : EVT2Decoder)
    (buf : List RawEvent) :
    ∃ j : ℕ, (decode_events_buffer F ul ap s buf).1.full_shift_ =
      s.full_shift_ + (j : Int) * TimeLoop F := by
  induction buf generalizing s with
  | nil => exact ⟨0, by simp [decode_events_buffer]⟩
  | cons ev buf ih =>
    obtain ⟨j1, h1⟩ := decode_event_full_shift_grows F ul ap s ev
    obtain ⟨j2, h2⟩ := ih (decode_event F ul ap s ev).1
    refine ⟨j1 + j2, ?_⟩
    simp only [decode_events_buffer]
    rw [h2, h1]
    push_cast
    ring

theorem decode_dispatch_full_shift_grows (s : EVT2Decoder) (buf : List RawEvent) :
    ∃ j : ℕ, (decode_dispatch F s buf).1.full_shift_ =
      s.full_shift_ + (j : Int) * TimeLoop F := by
  obtain ⟨ul, ap, h⟩ := decode_dispatch_cases F s buf
  rw [h]
  exact decode_events_buffer_full_shift_grows F ul ap s buf

theorem find_first_time_high_shift_sum (ts : Bool) (s : EVT2Decoder) (buf : List RawEvent)
    (h : buf.any (isTimeHigh F) = true) :
    (find_first_time_high F ts s buf).1.full_shift_ +
        (find_first_time_high F ts s buf).1.shift_th_ = 0 ∧
    (find_first_time_high F ts s buf).1.base_time_set_ = true := by
  induction buf with
  | nil => simp at h
  | cons ev buf ih =>
    by_cases hth : isTimeHigh F ev = true
    · simp [find_first_time_high, hth]
    · have hf : isTimeHigh F ev = false := by simpa using hth
      have hA : buf.any (isTimeHigh F) = true := by simpa [List.any_cons, hf] using h
      simpa [find_first_time_high, hf] using ih hA

/-- One decode call adds a whole number of periods to `full_shift_ + shift_th_`,
from a state in which this sum is 0 as long as the decoder has no base time. -/
theorem decode_impl_shift_sum (ts : Bool) (s : EVT2Decoder) (buf : List RawEvent)
    (hR : s.base_time_set_ = false → s.full_shift_ + s.shift_th_ = 0) :
    (∃ j : ℕ, (decode_impl F ts s buf).1.full_shift_ + (decode_impl F ts s buf).1.shift_th_ =
      s.full_shift_ + s.shift_th_ + (j : Int) * TimeLoop F) ∧
    ((decode_impl F ts s buf).1.base_time_set_ = false →
      (decode_impl F ts s buf).1.full_shift_ + (decode_impl F ts s buf).1.shift_th_ = 0) := by
  by_cases hs : s.base_time_set_ = true
  · have hs1 := decode_impl_base_time_set_of_set F ts s buf hs
    refine ⟨?_, fun h => by rw [hs1] at h; exact absurd h (by simp)⟩
    rw [decode_impl_of_set F ts s buf hs, decode_dispatch_shift_th]
    obtain ⟨j, hj⟩ := decode_dispatch_full_shift_grows F s buf
    exact ⟨j, by rw [hj]; ring⟩
  · have hs0 : s.base_time_set_ = false := by simpa using hs
    by_cases hth : buf.any (isTimeHigh F) = true
    · obtain ⟨f1, f2⟩ := find_first_time_high_shift_sum F ts s buf hth
      have hset : (decode_impl F ts s buf).1.base_time_set_ = true := by
        unfold decode_impl
        rw [decode_dispatch_base_time_set, init_base_time_of_not_set F ts s buf hs0]
        exact f2
      refine ⟨?_, fun h => by rw [hset] at h; exact absurd h (by simp)⟩
      unfold decode_impl
      rw [decode_dispatch_shift_th, init_base_time_of_not_set F ts s buf hs0]
      obtain ⟨j, hj⟩ := decode_dispatch_full_shift_grows F
        (find_first_time_high F ts s buf).1 (find_first_time_high F ts s buf).2
      refine ⟨j, ?_⟩
      rw [hj, hR hs0]
      omega
    · have hth0 : buf.any (isTimeHigh F) = false := by simpa using hth
      rw [decode_impl_not_set_none F ts s buf hs0 hth0]
      exact ⟨⟨0, by simp⟩, hR⟩

theorem decode_calls_shift_sum (ts : Bool) (s : EVT2Decoder) (bufs : List (List RawEvent))
    (hR : s.base_time_set_ = false → s.full_shift_ + s.shift_th_ = 0) :
    (∃ j : ℕ, (decode_calls F ts s bufs).1.full_shift_ + (decode_calls F ts s bufs).1.shift_th_ =
      s.full_shift_ + s.shift_th_ + (j : Int) * TimeLoop F) ∧
    ((decode_calls F ts s bufs).1.base_time_set_ = false →
      (decode_calls F ts s bufs).1.full_shift_ + (decode_calls F ts s bufs).1.shift_th_ = 0) := by
  induction bufs generalizing s with
  | nil => exact ⟨⟨0, by simp [decode_calls]⟩, hR⟩
  | cons buf bufs ih =>
    obtain ⟨⟨j1, h1⟩, r1⟩ := decode_impl_shift_sum F ts s buf hR
    obtain ⟨⟨j2, h2⟩, r2⟩ := ih (decode_impl F ts s buf).1 r1
    simp only [decode_calls]
    refine ⟨⟨j1 + j2, ?_⟩, r2⟩
    rw [h2, h1]
    push_cast
    ring

theorem timestamps_append (l1 l2 : List Forwarded) :
    timestamps (l1 ++ l2) = timestamps l1 ++ timestamps l2 := by
  simp [timestamps]

theorem decode_event_nonneg (ul ap : Bool) (s : EVT2Decoder) (ev : RawEvent)
    (hb : 0 ≤ s.base_time_) (hf : 0 ≤ s.full_shift_) :
    0 ≤ (decode_event F ul ap s ev).1.base_time_ ∧
    0 ≤ (decode_event F ul ap s ev).1.full_shift_ ∧
    ∀ t ∈ timestamps (decode_event F ul ap s ev).2, 0 ≤ t := by
  have hc := coarse_nonneg F ev
  have hT := TimeLoop_pos F
  by_cases hth : isTimeHigh F ev = true
  · obtain ⟨o1, _⟩ := decode_event_time_high_out F ul ap s ev hth
    refine ⟨?_, ?_, by rw [o1]; simp [timestamps]⟩
    · unfold decode_event
      simp only [hth, if_true]
      split_ifs <;> simp <;> omega
    · unfold decode_event
      simp only [hth, if_true]
      split_ifs <;> simp <;> omega
  · have hf0 : isTimeHigh F ev = false := by simpa using hth
    obtain ⟨e1, e2, e3, _⟩ := decode_event_not_time_high F ul ap s ev hf0
    refine ⟨by rw [e1]; exact hb, by rw [e2]; exact hf, ?_⟩
    intro t ht
    rw [e3, List.mem_map] at ht
    obtain ⟨f, hfm, rfl⟩ := ht
    unfold fine_offsets at hfm
    rw [List.mem_map] at hfm
    obtain ⟨w, _, rfl⟩ := hfm
    have : (0 : Int) ≤ (w.timestamp : Int) := Int.ofNat_nonneg _
    omega

theorem decode_events_buffer_nonneg (ul ap : Bool) (s : EVT2Decoder) (buf : List RawEvent)
    (hb : 0 ≤ s.base_time_) (hf : 0 ≤ s.full_shift_) :
    0 ≤ (decode_events_buffer F ul ap s buf).1.base_time_ ∧
    0 ≤ (decode_events_buffer F ul ap s buf).1.full_shift_ ∧
    ∀ t ∈ timestamps (decode_events_buffer F ul ap s buf).2, 0 ≤ t := by
  induction buf generalizing s with
  | nil => exact ⟨hb, hf, by simp [decode_events_buffer, timestamps]⟩
  | cons ev buf ih =>
    obtain ⟨a1, a2, a3⟩ := decode_event_nonneg F ul ap s ev hb hf
    obtain ⟨b1, b2, b3⟩ := ih (decode_event F ul ap s ev).1 a1 a2
    simp only [decode_events_buffer]
    refine ⟨b1, b2, ?_⟩
    intro t ht
    rw [timestamps_append, List.mem_append] at ht
    rcases ht with ht | ht
    · exact a3 t ht
    · exact b3 t ht

theorem decode_dispatch_nonneg (s : EVT2Decoder) (buf : List RawEvent)
    (hb : 0 ≤ s.base_time_) (hf : 0 ≤ s.full_shift_) :
    0 ≤ (decode_dispatch F s buf).1.base_time_ ∧
    0 ≤ (decode_dispatch F s buf).1.full_shift_ ∧
    ∀ t ∈ timestamps (decode_dispatch F s buf).2, 0 ≤ t := by
  obtain ⟨ul, ap, h⟩ := decode_dispatch_cases F s buf
  rw [h]
  exact decode_events_buffer_nonneg F ul ap s buf hb hf

theorem find_first_time_high_nonneg (s : EVT2Decoder) (buf : List RawEvent)
    (h : buf.any (isTimeHigh F) = true) :
    0 ≤ (find_first_time_high F false s buf).1.base_time_ ∧
    0 ≤ (find_first_time_high F false s buf).1.full_shift_ := by
  induction buf with
  | nil => simp at h
  | cons ev buf ih =>
    by_cases hth : isTimeHigh F ev = true
    · have hc := coarse_nonneg F ev
      simp [find_first_time_high, hth, hc]
    · have hf : isTimeHigh F ev = false := by simpa using hth
      have hA : buf.any (isTimeHigh F) = true := by simpa [List.any_cons, hf] using h
      simpa [find_first_time_high, hf] using ih hA

/-- Without time shifting, one decode call keeps `base_time_` and `full_shift_`
non-negative once the decoder has its base time, and forwards non-negative
timestamps only. -/
theorem decode_impl_nonneg (s : EVT2Decoder) (buf : List RawEvent)
    (hJ : s.base_time_set_ = true → 0 ≤ s.base_time_ ∧ 0 ≤ s.full_shift_) :
    ((decode_impl F false s buf).1.base_time_set_ = true →
      0 ≤ (decode_impl F false s buf).1.base_time_ ∧
        0 ≤ (decode_impl F false s buf).1.full_shift_) ∧
    ∀ t ∈ timestamps (decode_impl F false s buf).2, 0 ≤ t := by
  by_cases hs : s.base_time_set_ = true
  · rw [decode_impl_of_set F false s buf hs]
    obtain ⟨a1, a2, a3⟩ := decode_dispatch_nonneg F s buf (hJ hs).1 (hJ hs).2
    exact ⟨fun _ => ⟨a1, a2⟩, a3⟩
  · have hs0 : s.base_time_set_ = false := by simpa using hs
    by_cases hth : buf.any (isTimeHigh F) = true
    · obtain ⟨f1, f2⟩ := find_first_time_high_nonneg F s buf hth
      unfold decode_impl
      rw [init_base_time_of_not_set F false s buf hs0]
      obtain ⟨a1, a2, a3⟩ := decode_dispatch_nonneg F (find_first_time_high F false s buf).1
        (find_first_time_high F false s buf).2 f1 f2
      exact ⟨fun _ => ⟨a1, a2⟩, a3⟩
    · have hth0 : buf.any (isTimeHigh F) = false := by simpa using hth
      rw [decode_impl_not_set_none F false s buf hs0 hth0]
      exact ⟨hJ, by simp [timestamps]⟩

theorem decode_calls_nonneg (s : EVT2Decoder) (bufs : List (List RawEvent))
    (hJ : s.base_time_set_ = true → 0 ≤ s.base_time_ ∧ 0 ≤ s.full_shift_) :
    ∀ t ∈ timestamps (decode_calls F false s bufs).2, 0 ≤ t := by
  induction bufs generalizing s with
  | nil => simp [decode_calls, timestamps]
  | cons buf bufs ih =>
    obtain ⟨a1, a2⟩ := decode_impl_nonneg F s buf hJ
    have b := ih (decode_impl F false s buf).1 a1
    simp only [decode_calls]
    intro t ht
    rw [timestamps_append, List.mem_append] at ht
    rcases ht with ht | ht
    · exact a2 t ht
    · exact b t ht

end Lemmas

/-! ## C1: splitting a buffer at a word boundary -/

/-- C1 (the code at the failing input): a fresh decoder without time shifting,
`A = wrap_buffer_head` (the largest coarse value, the wrap to 0, one CD word)
and `B = late_buffer_tail` (a TIME_HIGH word 64000 ticks after the wrap).  One
call on `A ++ B` forwards the CD event with timestamp 0 and ends with
`full_shift_ = 0`: the pre-scan looks at the last TIME_HIGH word only and the
wrap is lost.  A call on `A` followed by a call on `B` forwards it with
timestamp `TimeLoop = 17179869184` and ends with `full_shift_ = TimeLoop`, which
is also what `decode_events_buffer<true, true>` computes on `A ++ B`.  So the
one-call and the two-call runs differ in the CD events and in the final
state. -/
theorem decode_split_wrap_evaluation :
    timestamps (decode_calls evt2 false (EVT2Decoder.fresh 0)
      [wrap_buffer_head ++ late_buffer_tail]).2 = [0] ∧
    (decode_calls evt2 false (EVT2Decoder.fresh 0)
      [wrap_buffer_head ++ late_buffer_tail]).1.full_shift_ = 0 ∧
    timestamps (decode_calls evt2 false (EVT2Decoder.fresh 0)
      [wrap_buffer_head, late_buffer_tail]).2 = [17179869184] ∧
    (decode_calls evt2 false (EVT2Decoder.fresh 0)
      [wrap_buffer_head, late_buffer_tail]).1.full_shift_ = TimeLoop evt2 ∧
    decode_impl_loop evt2 false (EVT2Decoder.fresh 0) (wrap_buffer_head ++ late_buffer_tail) =
      decode_calls evt2 false (EVT2Decoder.fresh 0) [wrap_buffer_head, late_buffer_tail] ∧
    ¬ (cd_events (decode_calls evt2 false (EVT2Decoder.fresh 0)
            [wrap_buffer_head ++ late_buffer_tail]).2 =
          cd_events (decode_calls evt2 false (EVT2Decoder.fresh 0)
            [wrap_buffer_head, late_buffer_tail]).2 ∧
        trigger_events (decode_calls evt2 false (EVT2Decoder.fresh 0)
            [wrap_buffer_head ++ late_buffer_tail]).2 =
          trigger_events (decode_calls evt2 false (EVT2Decoder.fresh 0)
            [wrap_buffer_head, late_buffer_tail]).2 ∧
        (decode_calls evt2 false (EVT2Decoder.fresh 0)
            [wrap_buffer_head ++ late_buffer_tail]).1 =
          (decode_calls evt2 false (EVT2Decoder.fresh 0)
            [wrap_buffer_head, late_buffer_tail]).1) := by
  decide

/-- Where the pre-scan reports every wrap in each of the three calls (on
`A ++ B`, on `A`, on `B` after `A`), one call on `A ++ B` computes what a call
on `A` followed by a call on `B` computes: the split fails through the pre-scan
only. -/
theorem decode_split_of_prescan_accurate (F : EVT2Format) (ts : Bool) (s : EVT2Decoder)
    (A B : List RawEvent)
    (hAB : prescan_accurate F ts s (A ++ B) = true)
    (hA : prescan_accurate F ts s A = true)
    (hB : prescan_accurate F ts (decode_impl F ts s A).1 B = true) :
    decode_calls F ts s [A ++ B] = decode_calls F ts s [A, B] := by
  simp only [decode_calls, List.append_nil]
  by_cases hs : s.base_time_set_ = true
  · have hs1 : (decode_impl F ts s A).1.base_time_set_ = true := by
      unfold decode_impl
      rw [decode_dispatch_base_time_set, init_base_time_of_set F ts s A hs]
      exact hs
    rw [decode_impl_eq_loop F ts _ B hB, decode_impl_eq_loop F ts s (A ++ B) hAB,
      decode_impl_eq_loop F ts s A hA]
    rw [init_base_time_of_set F ts s (A ++ B) hs, init_base_time_of_set F ts s A hs]
    rw [decode_impl_eq_loop F ts s A hA, init_base_time_of_set F ts s A hs] at hs1
    rw [init_base_time_of_set F ts _ B hs1]
    exact decode_events_buffer_append F true true s A B
  · have hs0 : s.base_time_set_ = false := by simpa using hs
    by_cases hth : A.any (isTimeHigh F) = true
    · obtain ⟨e1, e2⟩ := find_first_time_high_append_some F ts s A B hth
      have hs1 : (decode_impl F ts s A).1.base_time_set_ = true := by
        unfold decode_impl
        rw [decode_dispatch_base_time_set, init_base_time_of_not_set F ts s A hs0]
        exact e2
      rw [decode_impl_eq_loop F ts _ B hB, decode_impl_eq_loop F ts s (A ++ B) hAB,
        decode_impl_eq_loop F ts s A hA]
      rw [init_base_time_of_not_set F ts s (A ++ B) hs0, init_base_time_of_not_set F ts s A hs0, e1]
      rw [decode_impl_eq_loop F ts s A hA, init_base_time_of_not_set F ts s A hs0] at hs1
      rw [init_base_time_of_set F ts _ B hs1]
      exact decode_events_buffer_append F true true _ _ B
    · have hth0 : A.any (isTimeHigh F) = false := by simpa using hth
      rw [decode_impl_not_set_append F ts s A B hs0 hth0,
        decode_impl_not_set_none F ts s A hs0 hth0]
      simp

/-! ## C2, C3: the first coarse word under time shifting -/

/-- C2 (the code at the failing input): on `near_max_buffer`, whose first coarse
value is `c = MaxTimestamp = 17179869120`, a fresh decoder without time shifting
forwards the CD event with timestamp `c`, and a fresh decoder with time
shifting forwards it with timestamp `TimeLoop = 17179869184` instead of
`c - c = 0`: the first TIME_HIGH word, shifted, is compared with the unshifted
`base_time_` left by the initialisation and taken for a wrap. -/
theorem origin_shift_near_max_evaluation :
    coarse evt2 (time_high_word evt2 (2 ^ 28 - 1)) = 17179869120 ∧
    timestamps (decode_impl evt2 false (EVT2Decoder.fresh 0) near_max_buffer).2 = [17179869120] ∧
    timestamps (decode_impl evt2 true (EVT2Decoder.fresh 0) near_max_buffer).2 = [17179869184] ∧
    (decode_impl evt2 true (EVT2Decoder.fresh 0) near_max_buffer).1.full_shift_ =
      -17179869120 + TimeLoop evt2 := by
  decide

/-- C3 (the code at the failing input): on `one_wrap_buffer` a fresh decoder
with time shifting ends with `full_shift_ = -shift_th_ + 2 * TimeLoop`: two
corrections are applied, the first one on the very first TIME_HIGH word, where
the claim has exactly one (`-shift_th_ + TimeLoop`).  The two forwarded
timestamps still differ by `TimeLoop - c`. -/
theorem one_wrap_time_shifting_evaluation :
    (decode_impl evt2 true (EVT2Decoder.fresh 0) one_wrap_buffer).1.shift_th_ = 17179869120 ∧
    (decode_impl evt2 true (EVT2Decoder.fresh 0) one_wrap_buffer).1.full_shift_ =
      -17179869120 + 2 * TimeLoop evt2 ∧
    (decode_impl evt2 true (EVT2Decoder.fresh 0) one_wrap_buffer).1.full_shift_ ≠
      -17179869120 + TimeLoop evt2 ∧
    timestamps (decode_impl evt2 true (EVT2Decoder.fresh 0) one_wrap_buffer).2 =
      [TimeLoop evt2, 2 * TimeLoop evt2 - 17179869120] ∧
    (decode_impl evt2 false (EVT2Decoder.fresh 0) one_wrap_buffer).1.full_shift_ =
      TimeLoop evt2 := by
  decide

/-! ## C4: order of the forwarded timestamps -/

/-- C5: `has_time_loop(candidate, previous)` is true if and only if
`candidate < previous` and `previous - candidate >= MaxTimestamp - LoopThreshold`,
where `MaxTimestamp = (2^28 - 1) << NumBitsInTimestampLSB` and
`LoopThreshold = 10000`.  The integers range over `Int`, which covers every pair
of signed 64-bit timestamps whose difference does not overflow. -/
theorem has_time_loop_iff (F : EVT2Format) (candidate previous : Int) :
    has_time_loop F candidate previous = true ↔
      candidate < previous ∧
        previous - candidate ≥ ((2 : Int) ^ 28 - 1) * 2 ^ F.EVT2EventsTimeStampBits - 10000 := by
  unfold has_time_loop LoopThreshold
  rw [MaxTimestamp_eq]
  simp

/-! ## C6: one coarse word followed by events -/

/-- C6: for every decoder state and every buffer `th :: rest` where `th` is a
TIME_HIGH word, `rest` holds no TIME_HIGH word and at least one CD or trigger
word (the last one with fine offset `f`), and the fine offsets of the CD and
trigger words do not decrease: after decode, `get_last_timestamp()` is the
decoder's `base_time_` plus `f`, and the forwarded timestamps do not decrease. -/
theorem last_timestamp_after_single_time_high (F : EVT2Format) (ts : Bool) (s : EVT2Decoder)
    (th : RawEvent) (rest : List RawEvent) (f : Int)
    (hth : isTimeHigh F th = true)
    (hrest : rest.any (isTimeHigh F) = false)
    (hlast : (fine_offsets F rest).getLast? = some f)
    (hmono : List.Chain' (· ≤ ·) (fine_offsets F rest)) :
    get_last_timestamp (decode_impl F ts s (th :: rest)).1 =
      (decode_impl F ts s (th :: rest)).1.base_time_ + f ∧
    List.Chain' (· ≤ ·) (timestamps (decode_impl F ts s (th :: rest)).2) := by
  have hrange : (init_base_time F ts s (th :: rest)).2 = th :: rest := by
    unfold init_base_time
    split_ifs
    · exact find_first_time_high_cons_time_high F ts s th rest hth
    · rfl
  obtain ⟨ul, ap, hd⟩ := decode_dispatch_cases F (init_base_time F ts s (th :: rest)).1
    (init_base_time F ts s (th :: rest)).2
  have hdec : decode_impl F ts s (th :: rest) =
      decode_events_buffer F ul ap (init_base_time F ts s (th :: rest)).1 (th :: rest) := by
    unfold decode_impl
    rw [hd, hrange]
  obtain ⟨o1, _⟩ := decode_event_time_high_out F ul ap (init_base_time F ts s (th :: rest)).1 th hth
  obtain ⟨e1, _, e3, e4⟩ := decode_events_buffer_no_time_high F ul ap
    (decode_event F ul ap (init_base_time F ts s (th :: rest)).1 th).1 rest hrest
  rw [hdec]
  simp only [decode_events_buffer, o1, List.nil_append, get_last_timestamp]
  refine ⟨?_, ?_⟩
  · rw [e4, e1, List.getLast?_map, hlast]
    rfl
  · rw [e3, List.chain'_map]
    exact hmono.imp (fun h => by omega)

/-- C6 (witness): a coarse word of payload 1 and CD words of fine offsets 3, 5. -/
theorem last_timestamp_after_single_time_high_witness :
    get_last_timestamp (decode_impl evt2 true (EVT2Decoder.fresh 0)
        (time_high_word evt2 1 :: [cd_word evt2 3, cd_word evt2 5])).1 =
      (decode_impl evt2 true (EVT2Decoder.fresh 0)
        (time_high_word evt2 1 :: [cd_word evt2 3, cd_word evt2 5])).1.base_time_ + 5 ∧
    List.Chain' (· ≤ ·) (timestamps (decode_impl evt2 true (EVT2Decoder.fresh 0)
        (time_high_word evt2 1 :: [cd_word evt2 3, cd_word evt2 5])).2) :=
  last_timestamp_after_single_time_high evt2 true (EVT2Decoder.fresh 0) (time_high_word evt2 1)
    [cd_word evt2 3, cd_word evt2 5] 5 (by decide) (by decide) (by decide)
    (show List.Chain (· ≤ ·) (3 : Int) [5] from List.Chain.cons (by decide) List.Chain.nil)

/-! ## C7: `get_timestamp_shift` -/

/-- C7: on a fresh decoder `get_timestamp_shift` reports `(false, 0)`; after a
sequence of decode calls on a fresh decoder in which a TIME_HIGH word was seen,
`w` being the first one, it reports `true` and the coarse value of `w` when
time shifting is enabled, `0` when it is not; and once `base_time_set_` is true
no decode call changes what it reports. -/
theorem get_timestamp_shift_contract (F : EVT2Format) (ts : Bool) (b : Int)
    (bufs : List (List RawEvent)) (w : RawEvent) (s : EVT2Decoder) (buf : List RawEvent)
    (hw : bufs.flatten.find? (isTimeHigh F) = some w)
    (hs : s.base_time_set_ = true) :
    get_timestamp_shift (EVT2Decoder.fresh b) = (false, 0) ∧
    get_timestamp_shift (decode_calls F ts (EVT2Decoder.fresh b) bufs).1 =
      (true, if ts then coarse F w else 0) ∧
    get_timestamp_shift (decode_impl F ts s buf).1 = get_timestamp_shift s :=
  ⟨rfl, decode_calls_first_time_high F ts (EVT2Decoder.fresh b) bufs w rfl hw,
    decode_impl_get_timestamp_shift_of_set F ts s buf hs⟩

/-- C7 (witness): three calls on a fresh decoder with time shifting, the first
TIME_HIGH word (payload 1) in the second call; and one call on a decoder that
has its base time. -/
theorem get_timestamp_shift_contract_witness :
    get_timestamp_shift (EVT2Decoder.fresh 0) = (false, 0) ∧
    get_timestamp_shift (decode_calls evt2 true (EVT2Decoder.fresh 0)
        ([cd_word evt2 5] :: decreasing_fine_calls)).1 =
      (true, if true then coarse evt2 (time_high_word evt2 1) else 0) ∧
    get_timestamp_shift (decode_impl evt2 true coarse_one_state late_buffer_tail).1 =
      get_timestamp_shift coarse_one_state :=
  get_timestamp_shift_contract evt2 true 0 ([cd_word evt2 5] :: decreasing_fine_calls)
    (time_high_word evt2 1) coarse_one_state late_buffer_tail (by decide) (by decide)

/-! ## C8, C9: before the first coarse word -/

/-- C8: for every decoder with `base_time_set_` false, every `P` without
TIME_HIGH word and every buffer `R` (empty, beginning with a TIME_HIGH word, or
any other), decoding `P ++ R` forwards the same events and ends in the same
state as decoding `R`, also when further decode calls follow; decoding `P`
alone forwards nothing and changes nothing. -/
theorem words_before_first_time_high_discarded (F : EVT2Format) (ts : Bool) (s : EVT2Decoder)
    (P R : List RawEvent) (later : List (List RawEvent))
    (hs : s.base_time_set_ = false)
    (hP : P.any (isTimeHigh F) = false) :
    decode_impl F ts s (P ++ R) = decode_impl F ts s R ∧
    decode_calls F ts s ((P ++ R) :: later) = decode_calls F ts s (R :: later) ∧
    decode_calls F ts s (P :: R :: later) = decode_calls F ts s (R :: later) := by
  have h1 := decode_impl_not_set_append F ts s P R hs hP
  have h2 := decode_impl_not_set_none F ts s P hs hP
  refine ⟨h1, ?_, ?_⟩
  · simp only [decode_calls, h1]
  · simp only [decode_calls, h2, List.nil_append]

/-- C8 (witness): two CD words in front of a coarse word and a CD word. -/
theorem words_before_first_time_high_discarded_witness :
    decode_impl evt2 false (EVT2Decoder.fresh 0)
        ([cd_word evt2 3, cd_word evt2 5] ++ near_max_buffer) =
      decode_impl evt2 false (EVT2Decoder.fresh 0) near_max_buffer ∧
    decode_calls evt2 false (EVT2Decoder.fresh 0)
        (([cd_word evt2 3, cd_word evt2 5] ++ near_max_buffer) :: [late_buffer_tail]) =
      decode_calls evt2 false (EVT2Decoder.fresh 0) (near_max_buffer :: [late_buffer_tail]) ∧
    decode_calls evt2 false (EVT2Decoder.fresh 0)
        ([cd_word evt2 3, cd_word evt2 5] :: near_max_buffer :: [late_buffer_tail]) =
      decode_calls evt2 false (EVT2Decoder.fresh 0) (near_max_buffer :: [late_buffer_tail]) :=
  words_before_first_time_high_discarded evt2 false (EVT2Decoder.fresh 0)
    [cd_word evt2 3, cd_word evt2 5] near_max_buffer [late_buffer_tail] (by decide) (by decide)

/-- C9: for every decoder with `base_time_set_` false and every buffer without
TIME_HIGH word, decode forwards nothing and leaves the state as it is; on a
fresh decoder `base_time_set_` stays false, `get_last_timestamp()` still
returns -1 and `get_timestamp_shift` still reports `(false, 0)`. -/
theorem no_time_high_nothing_decoded (F : EVT2Format) (ts : Bool) (s : EVT2Decoder)
    (buf : List RawEvent) (b : Int)
    (hs : s.base_time_set_ = false)
    (hbuf : buf.any (isTimeHigh F) = false) :
    decode_impl F ts s buf = (s, []) ∧
    (decode_impl F ts (EVT2Decoder.fresh b) buf).2 = [] ∧
    (decode_impl F ts (EVT2Decoder.fresh b) buf).1.base_time_set_ = false ∧
    get_last_timestamp (decode_impl F ts (EVT2Decoder.fresh b) buf).1 = -1 ∧
    get_timestamp_shift (decode_impl F ts (EVT2Decoder.fresh b) buf).1 = (false, 0) := by
  have h1 := decode_impl_not_set_none F ts s buf hs hbuf
  have h2 := decode_impl_not_set_none F ts (EVT2Decoder.fresh b) buf rfl hbuf
  rw [h2]
  exact ⟨h1, rfl, rfl, rfl, rfl⟩

/-- C9 (witness): CD words and a trigger word, no coarse word. -/
theorem no_time_high_nothing_decoded_witness :
    decode_impl evt2 true (EVT2Decoder.fresh 7) [cd_word evt2 3, trigger_word evt2 5] =
      (EVT2Decoder.fresh 7, []) ∧
    (decode_impl evt2 true (EVT2Decoder.fresh 0) [cd_word evt2 3, trigger_word evt2 5]).2 = [] ∧
    (decode_impl evt2 true (EVT2Decoder.fresh 0)
      [cd_word evt2 3, trigger_word evt2 5]).1.base_time_set_ = false ∧
    get_last_timestamp (decode_impl evt2 true (EVT2Decoder.fresh 0)
      [cd_word evt2 3, trigger_word evt2 5]).1 = -1 ∧
    get_timestamp_shift (decode_impl evt2 true (EVT2Decoder.fresh 0)
      [cd_word evt2 3, trigger_word evt2 5]).1 = (false, 0) :=
  no_time_high_nothing_decoded evt2 true (EVT2Decoder.fresh 7)
    [cd_word evt2 3, trigger_word evt2 5] 0 (by decide) (by decide)

/-! ## C10: a backward jump that is not a wrap -/

/-- C10: for every decoder with `base_time_set_` true and every buffer made of
one TIME_HIGH word of coarse value `c` with `c + full_shift_ < base_time_` and
`base_time_ - (c + full_shift_) < MaxTimestamp - LoopThreshold`, decode forwards
no event and changes nothing but `base_time_`, which becomes `c + full_shift_`,
a value lower than before; `full_shift_` is unchanged. -/
theorem backward_jump_tolerated (F : EVT2Format) (ts : Bool) (s : EVT2Decoder) (ev : RawEvent)
    (hs : s.base_time_set_ = true)
    (hth : isTimeHigh F ev = true)
    (hlt : coarse F ev + s.full_shift_ < s.base_time_)
    (hsmall : s.base_time_ - (coarse F ev + s.full_shift_) < MaxTimestamp F - LoopThreshold) :
    decode_impl F ts s [ev] = ({ s with base_time_ := coarse F ev + s.full_shift_ }, []) ∧
    (decode_impl F ts s [ev]).1.full_shift_ = s.full_shift_ ∧
    (decode_impl F ts s [ev]).1.base_time_ < s.base_time_ := by
  have hloop : has_time_loop F (coarse F ev + s.full_shift_) s.base_time_ = false := by
    unfold has_time_loop
    simp only [Bool.and_eq_false_iff, decide_eq_false_iff_not]
    right
    omega
  have h : decode_impl F ts s [ev] =
      ({ s with base_time_ := coarse F ev + s.full_shift_ }, []) := by
    rw [decode_impl_of_set F ts s [ev] hs]
    unfold decode_dispatch buffer_has_time_loop
    simp only [List.reverse_singleton, buffer_has_time_loop_rev, hth, if_true, hloop,
      Bool.not_false]
    by_cases h0 : s.full_shift_ = 0
    · simp [decode_events_buffer, decode_event, hth, h0]
    · simp [decode_events_buffer, decode_event, hth, h0]
  rw [h]
  exact ⟨rfl, rfl, hlt⟩

/-- C10 (witness): from coarse payload 1000 back to payload 500. -/
theorem backward_jump_tolerated_witness :
    decode_impl evt2 false (decode_impl evt2 false (EVT2Decoder.fresh 0) late_buffer_tail).1
        [time_high_word evt2 500] =
      ({ (decode_impl evt2 false (EVT2Decoder.fresh 0) late_buffer_tail).1 with
          base_time_ := coarse evt2 (time_high_word evt2 500) +
            (decode_impl evt2 false (EVT2Decoder.fresh 0) late_buffer_tail).1.full_shift_ }, []) ∧
    (decode_impl evt2 false (decode_impl evt2 false (EVT2Decoder.fresh 0) late_buffer_tail).1
        [time_high_word evt2 500]).1.full_shift_ =
      (decode_impl evt2 false (EVT2Decoder.fresh 0) late_buffer_tail).1.full_shift_ ∧
    (decode_impl evt2 false (decode_impl evt2 false (EVT2Decoder.fresh 0) late_buffer_tail).1
        [time_high_word evt2 500]).1.base_time_ <
      (decode_impl evt2 false (EVT2Decoder.fresh 0) late_buffer_tail).1.base_time_ :=
  backward_jump_tolerated evt2 false
    (decode_impl evt2 false (EVT2Decoder.fresh 0) late_buffer_tail).1 (time_high_word evt2 500)
    (by decide) (by decide) (by decide) (by decide)

/-! ## C11: words of other tags -/

/-- C11: for every decoder state and every buffer, decoding the buffer forwards
the same events and ends in the same state as decoding it with every word whose
tag is none of TIME_HIGH, CD-low, CD-high, EXTERNAL_TRIGGER removed; a buffer
`other` made only of such words forwards nothing and changes no state field. -/
theorem other_tags_ignored (F : EVT2Format) (ts : Bool) (s : EVT2Decoder)
    (buf other : List RawEvent)
    (hother : other.all (fun ev => !handled_tag F ev) = true) :
    decode_impl F ts s buf = decode_impl F ts s (drop_other_tags F buf) ∧
    decode_impl F ts s other = (s, []) := by
  refine ⟨(decode_impl_drop_other_tags F ts s buf).symm, ?_⟩
  have hnil : drop_other_tags F other = [] := by
    unfold drop_other_tags
    rw [List.filter_eq_nil_iff]
    intro a ha
    have := (List.all_eq_true.mp hother) a ha
    simpa using this
  rw [← decode_impl_drop_other_tags F ts s other, hnil]
  exact decode_impl_nil F ts s

/-- C11 (witness): words of tag 15 between a coarse word and two events, and a
buffer of two words of tag 15. -/
theorem other_tags_ignored_witness :
    decode_impl evt2 true coarse_one_state
        [other_word 9, time_high_word evt2 2, other_word 1, cd_word evt2 3, other_word 0,
          trigger_word evt2 5] =
      decode_impl evt2 true coarse_one_state
        (drop_other_tags evt2
          [other_word 9, time_high_word evt2 2, other_word 1, cd_word evt2 3, other_word 0,
            trigger_word evt2 5]) ∧
    decode_impl evt2 true coarse_one_state [other_word 9, other_word 1] =
      (coarse_one_state, []) :=
  other_tags_ignored evt2 true coarse_one_state
    [other_word 9, time_high_word evt2 2, other_word 1, cd_word evt2 3, other_word 0,
      trigger_word evt2 5] [other_word 9, other_word 1] (by decide)

/-! ## C12: events between two coarse words -/

/-- C12: for every decoder with `base_time_set_` true and every buffer without
TIME_HIGH word (the fields of its words fitting their bit-fields, the low bit
of the CD-low tag being 0 and that of the CD-high tag 1), decode forwards what
`expected_events` lists: one event per CD word and one per trigger word, each
to its own sink, in buffer order, stamped `base_time_` plus the fine offset of
the word, with polarity 0 for CD-low and 1 for CD-high.  Every timestamp lies in
`[base_time_, base_time_ + 2^NumBitsInTimestampLSB - 1]`; `base_time_`,
`full_shift_` and `shift_th_` are unchanged; `last_timestamp_` becomes the
timestamp of the last forwarded event, or is unchanged when there is none. -/
theorem events_between_time_high (F : EVT2Format) (ts : Bool) (s : EVT2Decoder)
    (buf : List RawEvent)
    (hs : s.base_time_set_ = true)
    (hth : buf.any (isTimeHigh F) = false)
    (hfit : ∀ ev ∈ buf, fields_fit F ev = true)
    (hlow : F.LEFT_TD_LOW % 2 = 0) (hhigh : F.LEFT_TD_HIGH % 2 = 1) :
    (decode_impl F ts s buf).2 = expected_events F s.base_time_ buf ∧
    (cd_events (decode_impl F ts s buf).2).length = (buf.filter (isCD F)).length ∧
    (trigger_events (decode_impl F ts s buf).2).length = (buf.filter (isTrigger F)).length ∧
    (∀ t ∈ timestamps (decode_impl F ts s buf).2,
      s.base_time_ ≤ t ∧ t ≤ s.base_time_ + (2 : Int) ^ NumBitsInTimestampLSB F - 1) ∧
    (decode_impl F ts s buf).1.base_time_ = s.base_time_ ∧
    (decode_impl F ts s buf).1.full_shift_ = s.full_shift_ ∧
    (decode_impl F ts s buf).1.shift_th_ = s.shift_th_ ∧
    (decode_impl F ts s buf).1.last_timestamp_ =
      ((timestamps (decode_impl F ts s buf).2).getLast?).getD s.last_timestamp_ := by
  obtain ⟨ul, ap, hd⟩ := decode_dispatch_cases F s buf
  have hdec : decode_impl F ts s buf = decode_events_buffer F ul ap s buf := by
    rw [decode_impl_of_set F ts s buf hs, hd]
  obtain ⟨e1, e2, e3, e4⟩ := decode_events_buffer_no_time_high F ul ap s buf hth
  have hexp := decode_events_buffer_eq_expected F ul ap s buf hth hfit hlow hhigh
  obtain ⟨c1, c2⟩ := expected_events_count F s.base_time_ buf
  rw [hdec]
  refine ⟨hexp, by rw [hexp, c1], by rw [hexp, c2], ?_, e1, e2,
    decode_events_buffer_shift_th F ul ap s buf, by rw [e3, e4]⟩
  intro t ht
  rw [e3, List.mem_map] at ht
  obtain ⟨f, hf, rfl⟩ := ht
  have hb := fine_offsets_bound F buf hfit f hf
  constructor <;> omega

/-- C12 (witness): a CD-low word, a trigger word, a word of another tag and a
CD-high word after a coarse word of value 64. -/
theorem events_between_time_high_witness :
    (decode_impl evt2 false coarse_one_state events_buffer).2 =
      [Forwarded.cd 1 2 0 67, Forwarded.trigger 1 69 0, Forwarded.cd 5 6 1 127] ∧
    (decode_impl evt2 false coarse_one_state events_buffer).2 =
      expected_events evt2 coarse_one_state.base_time_ events_buffer ∧
    (cd_events (decode_impl evt2 false coarse_one_state events_buffer).2).length =
      (events_buffer.filter (isCD evt2)).length ∧
    (trigger_events (decode_impl evt2 false coarse_one_state events_buffer).2).length =
      (events_buffer.filter (isTrigger evt2)).length ∧
    (∀ t ∈ timestamps (decode_impl evt2 false coarse_one_state events_buffer).2,
      coarse_one_state.base_time_ ≤ t ∧
        t ≤ coarse_one_state.base_time_ + (2 : Int) ^ NumBitsInTimestampLSB evt2 - 1) ∧
    (decode_impl evt2 false coarse_one_state events_buffer).1.base_time_ =
      coarse_one_state.base_time_ ∧
    (decode_impl evt2 false coarse_one_state events_buffer).1.full_shift_ =
      coarse_one_state.full_shift_ ∧
    (decode_impl evt2 false coarse_one_state events_buffer).1.shift_th_ =
      coarse_one_state.shift_th_ ∧
    (decode_impl evt2 false coarse_one_state events_buffer).1.last_timestamp_ =
      ((timestamps (decode_impl evt2 false coarse_one_state events_buffer).2).getLast?).getD
        coarse_one_state.last_timestamp_ :=
  ⟨by decide,
    events_between_time_high evt2 false coarse_one_state events_buffer (by decide) (by decide)
      (by decide) (by decide) (by decide)⟩

/-! ## C13: a decoder without CD sink -/

/-- C13: with an absent sink dropping what it is given, for every sequence of
decode calls a decoder built with only a trigger sink forwards no CD event,
forwards the same trigger events as a decoder built with both sinks (which
receives everything that is forwarded) and ends in the same state; and a CD
word `ev` decoded by a decoder that has its base time and no CD sink is dropped
but still sets `last_timestamp_` to `base_time_` plus its fine offset. -/
theorem absent_cd_sink (F : EVT2Format) (ts : Bool) (s : EVT2Decoder)
    (bufs : List (List RawEvent)) (ev : RawEvent)
    (hs : s.base_time_set_ = true)
    (hcd : isCD F ev = true) :
    cd_events (decode_calls_with_sinks F ts false true s bufs).2 = [] ∧
    trigger_events (decode_calls_with_sinks F ts false true s bufs).2 =
      trigger_events (decode_calls_with_sinks F ts true true s bufs).2 ∧
    (decode_calls_with_sinks F ts false true s bufs).1 =
      (decode_calls_with_sinks F ts true true s bufs).1 ∧
    decode_calls_with_sinks F ts true true s bufs = decode_calls F ts s bufs ∧
    (decode_calls_with_sinks F ts false true s [[ev]]).2 = [] ∧
    (decode_calls_with_sinks F ts false true s [[ev]]).1.last_timestamp_ =
      s.base_time_ + (ev.timestamp : Int) := by
  refine ⟨cd_events_delivered_no_cd_sink true _, ?_, rfl, ?_, ?_⟩
  · simp only [decode_calls_with_sinks, trigger_events_delivered]
  · simp only [decode_calls_with_sinks, delivered_all]
  · obtain ⟨ul, ap, hd⟩ := decode_dispatch_cases F s [ev]
    have hdec : decode_impl F ts s [ev] = decode_events_buffer F ul ap s [ev] := by
      rw [decode_impl_of_set F ts s [ev] hs, hd]
    obtain ⟨c1, c2⟩ := decode_event_cd F ul ap s ev hcd
    simp only [decode_calls_with_sinks, decode_calls, hdec, decode_events_buffer,
      List.append_nil]
    exact ⟨c1, c2⟩

/-- C13 (witness): two calls, CD and trigger words in both. -/
theorem absent_cd_sink_witness :
    cd_events (decode_calls_with_sinks evt2 true false true coarse_one_state
      [events_buffer, missed_wrap_buffer]).2 = [] ∧
    trigger_events (decode_calls_with_sinks evt2 true false true coarse_one_state
        [events_buffer, missed_wrap_buffer]).2 =
      trigger_events (decode_calls_with_sinks evt2 true true true coarse_one_state
        [events_buffer, missed_wrap_buffer]).2 ∧
    (decode_calls_with_sinks evt2 true false true coarse_one_state
        [events_buffer, missed_wrap_buffer]).1 =
      (decode_calls_with_sinks evt2 true true true coarse_one_state
        [events_buffer, missed_wrap_buffer]).1 ∧
    decode_calls_with_sinks evt2 true true true coarse_one_state
        [events_buffer, missed_wrap_buffer] =
      decode_calls evt2 true coarse_one_state [events_buffer, missed_wrap_buffer] ∧
    (decode_calls_with_sinks evt2 true false true coarse_one_state [[cd_word evt2 9]]).2 = [] ∧
    (decode_calls_with_sinks evt2 true false true coarse_one_state
        [[cd_word evt2 9]]).1.last_timestamp_ =
      coarse_one_state.base_time_ + ((cd_word evt2 9).timestamp : Int) :=
  absent_cd_sink evt2 true coarse_one_state [events_buffer, missed_wrap_buffer]
    (cd_word evt2 9) (by decide) (by decide)

/-! ## C14: the loop pre-scan -/

/-- C14 (the code at the failing input): `max_coarse_state` is the state of a
fresh decoder after `[TIME_HIGH(2^28 - 1)]`.  On `missed_wrap_buffer` the
pre-scan reports no loop, although the first TIME_HIGH word of the buffer
passes the wraparound test against the `base_time_` in effect when it is
reached; the dispatch selects `decode_events_buffer<false, false>`, which
stamps the CD event 0 and leaves `full_shift_ = 0`, where
`decode_events_buffer<true, true>` stamps it `TimeLoop = 17179869184` and ends
with `full_shift_ = TimeLoop`. -/
theorem prescan_missed_wrap_evaluation :
    (decode_impl evt2 false (EVT2Decoder.fresh 0) [time_high_word evt2 (2 ^ 28 - 1)]).1 =
      max_coarse_state ∧
    buffer_has_time_loop evt2 missed_wrap_buffer max_coarse_state.base_time_
      max_coarse_state.full_shift_ = false ∧
    loop_found evt2 max_coarse_state missed_wrap_buffer = true ∧
    timestamps (decode_dispatch evt2 max_coarse_state missed_wrap_buffer).2 = [0] ∧
    (decode_dispatch evt2 max_coarse_state missed_wrap_buffer).1.full_shift_ = 0 ∧
    timestamps (decode_events_buffer evt2 true true max_coarse_state missed_wrap_buffer).2 =
      [17179869184] ∧
    (decode_events_buffer evt2 true true max_coarse_state missed_wrap_buffer).1.full_shift_ =
      TimeLoop evt2 ∧
    decode_dispatch evt2 max_coarse_state missed_wrap_buffer ≠
      decode_events_buffer evt2 true true max_coarse_state missed_wrap_buffer := by
  decide

/-- On a range that holds at most one TIME_HIGH word the pre-scan reports a
loop exactly when that word passes the wraparound test when it is reached, and
the dispatch computes what `decode_events_buffer<true, true>` computes. -/
theorem prescan_exact_single_time_high (F : EVT2Format) (s : EVT2Decoder)
    (buf : List RawEvent)
    (h : (buf.filter (isTimeHigh F)).length ≤ 1) :
    (buffer_has_time_loop F buf s.base_time_ s.full_shift_ = false →
      loop_found F s buf = false) ∧
    buffer_has_time_loop F buf s.base_time_ s.full_shift_ = loop_found F s buf ∧
    decode_dispatch F s buf = decode_events_buffer F true true s buf := by
  have e := buffer_has_time_loop_eq_loop_found F s buf h
  refine ⟨fun hp => by rw [← e]; exact hp, e, ?_⟩
  apply decode_dispatch_eq_loop
  rw [e]
  cases loop_found F s buf <;> rfl

/-! ## C15: the first coarse word -/

/-- C15 (the code at the failing input): a fresh decoder with time shifting,
one decode call on `[TIME_HIGH(2^28 - 1)]`, coarse value `c = 17179869120`.
The call ends with `shift_th_ = c`, `full_shift_ = -c + TimeLoop = 64` and
`base_time_ = TimeLoop = 17179869184`, where the claim has `full_shift_ = -c`
and `base_time_ = 0`.  Without time shifting the state is the one of the
claim. -/
theorem first_time_high_near_max_evaluation :
    coarse evt2 (time_high_word evt2 (2 ^ 28 - 1)) = 17179869120 ∧
    decode_impl evt2 true (EVT2Decoder.fresh 0) [time_high_word evt2 (2 ^ 28 - 1)] =
      ({ base_time_set_ := true, base_time_ := 17179869184, shift_th_ := 17179869120,
         last_timestamp_ := -1, full_shift_ := 64 }, []) ∧
    TimeLoop evt2 = 17179869184 ∧
    decode_impl evt2 false (EVT2Decoder.fresh 0) [time_high_word evt2 (2 ^ 28 - 1)] =
      ({ base_time_set_ := true, base_time_ := 17179869120, shift_th_ := 0,
         last_timestamp_ := -1, full_shift_ := 0 }, []) := by
  decide

/-! ## C16: the constants -/

/-- C16: when the fine offset fits the 28-bit payload of a word
(`NumBitsInTimestampLSB <= 28`), `MaxTimestamp = (2^28 - 1) * 2^NumBitsInTimestampLSB`
and `TimeLoop = MaxTimestamp + 2^NumBitsInTimestampLSB = 2^(28 + NumBitsInTimestampLSB)`;
the two `int` shifts stay below `2^31` and both constants below `2^63`; for
every 28-bit payload `p` the coarse value lies in `[0, MaxTimestamp]`,
`MaxTimestamp < TimeLoop`, and for every fine offset `f < 2^NumBitsInTimestampLSB`
the on-wire timestamp `coarse + f` is below `TimeLoop`, which the largest
payload and fine offset miss by one. -/
theorem constants_period (F : EVT2Format) (p f : Nat)
    (hbits : NumBitsInTimestampLSB F ≤ 28)
    (hp : p < 2 ^ 28)
    (hf : f < 2 ^ NumBitsInTimestampLSB F) :
    MaxTimestamp F = ((2 : Int) ^ 28 - 1) * 2 ^ NumBitsInTimestampLSB F ∧
    TimeLoop F = MaxTimestamp F + 2 ^ NumBitsInTimestampLSB F ∧
    TimeLoop F = (2 : Int) ^ (28 + NumBitsInTimestampLSB F) ∧
    ((1 <<< 28) - 1 : Nat) < 2 ^ 31 ∧
    (1 <<< NumBitsInTimestampLSB F : Nat) < 2 ^ 31 ∧
    MaxTimestamp F < 2 ^ 63 ∧
    TimeLoop F < 2 ^ 63 ∧
    0 ≤ coarse F (time_high_word F p) ∧
    coarse F (time_high_word F p) ≤ MaxTimestamp F ∧
    MaxTimestamp F < TimeLoop F ∧
    coarse F (time_high_word F p) + (f : Int) < TimeLoop F ∧
    coarse F (time_high_word F (2 ^ 28 - 1)) + ((2 : Int) ^ NumBitsInTimestampLSB F - 1) =
      TimeLoop F - 1 := by
  have hT := TimeLoop_eq F
  have hTa := TimeLoop_eq_add F
  have hM := MaxTimestamp_eq F
  have hc := coarse_le_MaxTimestamp F (time_high_word F p) hp
  have hc0 := coarse_nonneg F (time_high_word F p)
  have hpow : (0 : Int) < 2 ^ F.EVT2EventsTimeStampBits := by positivity
  have hf2 : (f : Int) < (2 : Int) ^ F.EVT2EventsTimeStampBits := by
    unfold NumBitsInTimestampLSB at hf
    exact_mod_cast hf
  have hle : (2 : Int) ^ (28 + F.EVT2EventsTimeStampBits) ≤ 2 ^ 56 :=
    pow_le_pow_right₀ (by norm_num) (by unfold NumBitsInTimestampLSB at hbits; omega)
  have hmax : coarse F (time_high_word F (2 ^ 28 - 1)) = MaxTimestamp F := by
    rw [coarse_eq, hM]
    simp [time_high_word]
  have hsh : (1 <<< NumBitsInTimestampLSB F : Nat) < 2 ^ 31 := by
    rw [Nat.shiftLeft_eq, one_mul]
    exact Nat.pow_lt_pow_right (by norm_num) (by omega)
  unfold NumBitsInTimestampLSB at *
  refine ⟨hM, hTa, hT, by decide, hsh, ?_, ?_, hc0, hc, ?_, ?_, ?_⟩
  · have : (2 : Int) ^ 56 < 2 ^ 63 := by norm_num
    omega
  · have : (2 : Int) ^ 56 < 2 ^ 63 := by norm_num
    omega
  · omega
  · omega
  · rw [hmax]
    omega

/-- C16 (witness): the EVT2 format, payload 1000, fine offset 63. -/
theorem constants_period_witness :
    MaxTimestamp evt2 = ((2 : Int) ^ 28 - 1) * 2 ^ NumBitsInTimestampLSB evt2 ∧
    TimeLoop evt2 = MaxTimestamp evt2 + 2 ^ NumBitsInTimestampLSB evt2 ∧
    TimeLoop evt2 = (2 : Int) ^ (28 + NumBitsInTimestampLSB evt2) ∧
    ((1 <<< 28) - 1 : Nat) < 2 ^ 31 ∧
    (1 <<< NumBitsInTimestampLSB evt2 : Nat) < 2 ^ 31 ∧
    MaxTimestamp evt2 < 2 ^ 63 ∧
    TimeLoop evt2 < 2 ^ 63 ∧
    0 ≤ coarse evt2 (time_high_word evt2 1000) ∧
    coarse evt2 (time_high_word evt2 1000) ≤ MaxTimestamp evt2 ∧
    MaxTimestamp evt2 < TimeLoop evt2 ∧
    coarse evt2 (time_high_word evt2 1000) + ((63 : Nat) : Int) < TimeLoop evt2 ∧
    coarse evt2 (time_high_word evt2 (2 ^ 28 - 1)) +
        ((2 : Int) ^ NumBitsInTimestampLSB evt2 - 1) =
      TimeLoop evt2 - 1 :=
  constants_period evt2 1000 63 (by decide) (by decide) (by decide)

/-! ## C19: the fast paths -/

/-- C19: for every decoder state and every range on which
`decode_events_buffer<true, true>` never finds `has_time_loop` true,
`full_shift_` is left unchanged and `decode_events_buffer<false, true>` forwards
the same events and ends in the same state; when moreover `full_shift_ = 0`,
`decode_events_buffer<false, false>` does too. -/
theorem fast_path_equivalence (F : EVT2Format) (s : EVT2Decoder) (buf : List RawEvent)
    (hl : loop_found F s buf = false) :
    (decode_events_buffer F true true s buf).1.full_shift_ = s.full_shift_ ∧
    decode_events_buffer F false true s buf = decode_events_buffer F true true s buf ∧
    (s.full_shift_ = 0 →
      decode_events_buffer F false false s buf = decode_events_buffer F true true s buf) := by
  refine ⟨decode_events_buffer_no_loop_full_shift F s buf hl,
    (decode_events_buffer_no_loop F s buf hl).symm, fun h0 => ?_⟩
  rw [decode_events_buffer_no_loop F s buf hl, decode_events_buffer_no_shift F s buf h0]

/-- C19 (witness): a backward jump that is no wrap, events around it, from a
state with `full_shift_ = 0`. -/
theorem fast_path_equivalence_witness :
    (decode_events_buffer evt2 true true max_coarse_state
        [cd_word evt2 1, time_high_word evt2 1000, trigger_word evt2 2]).1.full_shift_ =
      max_coarse_state.full_shift_ ∧
    decode_events_buffer evt2 false true max_coarse_state
        [cd_word evt2 1, time_high_word evt2 1000, trigger_word evt2 2] =
      decode_events_buffer evt2 true true max_coarse_state
        [cd_word evt2 1, time_high_word evt2 1000, trigger_word evt2 2] ∧
    (max_coarse_state.full_shift_ = 0 →
      decode_events_buffer evt2 false false max_coarse_state
          [cd_word evt2 1, time_high_word evt2 1000, trigger_word evt2 2] =
        decode_events_buffer evt2 true true max_coarse_state
          [cd_word evt2 1, time_high_word evt2 1000, trigger_word evt2 2]) :=
  fast_path_equivalence evt2 max_coarse_state
    [cd_word evt2 1, time_high_word evt2 1000, trigger_word evt2 2] (by decide)

/-! ## C20: the size of a detected wrap -/

/-- C20: for every state with `base_time_ = c_prev + full_shift_` and
`c_prev <= MaxTimestamp` (the bound `0 <= c_prev` is not needed), and every
TIME_HIGH word of coarse value `c`
decoded by `decode_events_buffer<true, true>` for which
`has_time_loop(c + full_shift_, base_time_)` holds: the new `base_time_` is
`c + full_shift_ + TimeLoop`, `full_shift_` grows by `TimeLoop`, nothing is
forwarded, and the new `base_time_` exceeds the previous one by at least
`2^NumBitsInTimestampLSB` and at most `LoopThreshold + 2^NumBitsInTimestampLSB`. -/
theorem detected_wrap_bound (F : EVT2Format) (s : EVT2Decoder) (ev : RawEvent)
    (hhi : s.base_time_ - s.full_shift_ ≤ MaxTimestamp F)
    (hth : isTimeHigh F ev = true)
    (hloop : has_time_loop F (coarse F ev + s.full_shift_) s.base_time_ = true) :
    decode_event F true true s ev =
      ({ s with full_shift_ := s.full_shift_ + TimeLoop F,
                base_time_ := coarse F ev + s.full_shift_ + TimeLoop F }, []) ∧
    (decode_event F true true s ev).1.base_time_ =
      coarse F ev + s.full_shift_ + TimeLoop F ∧
    (decode_event F true true s ev).1.full_shift_ = s.full_shift_ + TimeLoop F ∧
    s.base_time_ < (decode_event F true true s ev).1.base_time_ ∧
    (2 : Int) ^ NumBitsInTimestampLSB F ≤
      (decode_event F true true s ev).1.base_time_ - s.base_time_ ∧
    (decode_event F true true s ev).1.base_time_ - s.base_time_ ≤
      LoopThreshold + (2 : Int) ^ NumBitsInTimestampLSB F := by
  have hev : decode_event F true true s ev =
      ({ s with full_shift_ := s.full_shift_ + TimeLoop F,
                base_time_ := coarse F ev + s.full_shift_ + TimeLoop F }, []) := by
    simp [decode_event, hth, hloop]
  have hc0 := coarse_nonneg F ev
  have hTa := TimeLoop_eq_add F
  have hpow : (0 : Int) < 2 ^ F.EVT2EventsTimeStampBits := by positivity
  unfold has_time_loop at hloop
  simp only [Bool.and_eq_true, decide_eq_true_eq] at hloop
  unfold NumBitsInTimestampLSB
  rw [hev]
  refine ⟨rfl, rfl, rfl, ?_, ?_, ?_⟩
  · show s.base_time_ < coarse F ev + s.full_shift_ + TimeLoop F
    omega
  · show (2 : Int) ^ F.EVT2EventsTimeStampBits ≤
      coarse F ev + s.full_shift_ + TimeLoop F - s.base_time_
    omega
  · show coarse F ev + s.full_shift_ + TimeLoop F - s.base_time_ ≤
      LoopThreshold + (2 : Int) ^ F.EVT2EventsTimeStampBits
    omega

/-- C20 (witness): from the largest coarse value to coarse value 0. -/
theorem detected_wrap_bound_witness :
    decode_event evt2 true true max_coarse_state (time_high_word evt2 0) =
      ({ max_coarse_state with
          full_shift_ := max_coarse_state.full_shift_ + TimeLoop evt2,
          base_time_ := coarse evt2 (time_high_word evt2 0) + max_coarse_state.full_shift_ +
            TimeLoop evt2 }, []) ∧
    (decode_event evt2 true true max_coarse_state (time_high_word evt2 0)).1.base_time_ =
      coarse evt2 (time_high_word evt2 0) + max_coarse_state.full_shift_ + TimeLoop evt2 ∧
    (decode_event evt2 true true max_coarse_state (time_high_word evt2 0)).1.full_shift_ =
      max_coarse_state.full_shift_ + TimeLoop evt2 ∧
    max_coarse_state.base_time_ <
      (decode_event evt2 true true max_coarse_state (time_high_word evt2 0)).1.base_time_ ∧
    (2 : Int) ^ NumBitsInTimestampLSB evt2 ≤
      (decode_event evt2 true true max_coarse_state (time_high_word evt2 0)).1.base_time_ -
        max_coarse_state.base_time_ ∧
    (decode_event evt2 true true max_coarse_state (time_high_word evt2 0)).1.base_time_ -
        max_coarse_state.base_time_ ≤
      LoopThreshold + (2 : Int) ^ NumBitsInTimestampLSB evt2 :=
  detected_wrap_bound evt2 max_coarse_state (time_high_word evt2 0) (by decide) (by decide)
    (by decide)

/-! ## C17, C18: invariants of the states reached from a fresh decoder -/

/-- C17: in every state reached from a fresh decoder by decode calls (on words
with 28-bit payloads) in which `base_time_set_` is true, the calls have met a
TIME_HIGH word, and with `w` the last one, `base_time_` is the coarse value of
`w` plus `full_shift_`; so `base_time_ - full_shift_` lies in
`[0, MaxTimestamp]` and is a multiple of `2^NumBitsInTimestampLSB`. -/
theorem base_time_tracks_last_time_high (F : EVT2Format) (ts : Bool) (b : Int)
    (bufs : List (List RawEvent))
    (hset : (decode_calls F ts (EVT2Decoder.fresh b) bufs).1.base_time_set_ = true)
    (hvalid : ∀ ev ∈ bufs.flatten, ev.trail < 2 ^ 28) :
    ∃ w, bufs.flatten.reverse.find? (isTimeHigh F) = some w ∧
      (decode_calls F ts (EVT2Decoder.fresh b) bufs).1.base_time_ =
        coarse F w + (decode_calls F ts (EVT2Decoder.fresh b) bufs).1.full_shift_ ∧
      0 ≤ (decode_calls F ts (EVT2Decoder.fresh b) bufs).1.base_time_ -
        (decode_calls F ts (EVT2Decoder.fresh b) bufs).1.full_shift_ ∧
      (decode_calls F ts (EVT2Decoder.fresh b) bufs).1.base_time_ -
        (decode_calls F ts (EVT2Decoder.fresh b) bufs).1.full_shift_ ≤ MaxTimestamp F ∧
      (2 : Int) ^ NumBitsInTimestampLSB F ∣
        (decode_calls F ts (EVT2Decoder.fresh b) bufs).1.base_time_ -
          (decode_calls F ts (EVT2Decoder.fresh b) bufs).1.full_shift_ := by
  have ht := decode_calls_tracks F ts (EVT2Decoder.fresh b) bufs 0
    (fun h => absurd h (by simp [EVT2Decoder.fresh])) hset
  rw [last_coarse_eq_find?] at ht
  cases hfind : bufs.flatten.reverse.find? (isTimeHigh F) with
  | none =>
    have hany := any_eq_false_of_reverse_find?_eq_none F bufs.flatten hfind
    rw [decode_calls_not_set_none F ts (EVT2Decoder.fresh b) bufs rfl hany] at hset
    exact absurd hset (by simp [EVT2Decoder.fresh])
  | some w =>
    rw [hfind] at ht
    simp only [Option.map_some', Option.getD_some] at ht
    obtain ⟨hmem, _⟩ := reverse_find?_time_high F bufs.flatten w hfind
    have h0 := coarse_nonneg F w
    have hmax := coarse_le_MaxTimestamp F w (hvalid w hmem)
    refine ⟨w, rfl, by omega, by omega, by omega, ?_⟩
    rw [ht, coarse_eq]
    exact Dvd.intro_left _ rfl

/-- C17 (witness): a wrap over two calls, with time shifting. -/
theorem base_time_tracks_last_time_high_witness :
    ∃ w, [wrap_buffer_head, late_buffer_tail].flatten.reverse.find? (isTimeHigh evt2) = some w ∧
      (decode_calls evt2 true (EVT2Decoder.fresh 0) [wrap_buffer_head, late_buffer_tail]).1.base_time_ =
        coarse evt2 w +
          (decode_calls evt2 true (EVT2Decoder.fresh 0)
            [wrap_buffer_head, late_buffer_tail]).1.full_shift_ ∧
      0 ≤ (decode_calls evt2 true (EVT2Decoder.fresh 0)
          [wrap_buffer_head, late_buffer_tail]).1.base_time_ -
        (decode_calls evt2 true (EVT2Decoder.fresh 0)
          [wrap_buffer_head, late_buffer_tail]).1.full_shift_ ∧
      (decode_calls evt2 true (EVT2Decoder.fresh 0)
          [wrap_buffer_head, late_buffer_tail]).1.base_time_ -
        (decode_calls evt2 true (EVT2Decoder.fresh 0)
          [wrap_buffer_head, late_buffer_tail]).1.full_shift_ ≤ MaxTimestamp evt2 ∧
      (2 : Int) ^ NumBitsInTimestampLSB evt2 ∣
        (decode_calls evt2 true (EVT2Decoder.fresh 0)
            [wrap_buffer_head, late_buffer_tail]).1.base_time_ -
          (decode_calls evt2 true (EVT2Decoder.fresh 0)
            [wrap_buffer_head, late_buffer_tail]).1.full_shift_ :=
  base_time_tracks_last_time_high evt2 true 0 [wrap_buffer_head, late_buffer_tail]
    (by decide) (by decide)

/-- C18: on a fresh decoder `full_shift_ = 0`, `shift_th_ = 0` and
`base_time_set_` is false; in every state reached from it by decode calls
`full_shift_ + shift_th_ = k * TimeLoop` for a natural number `k`, and after one
more decode call it is `k2 * TimeLoop` with `k <= k2`; without time shifting
every forwarded timestamp is non-negative. -/
theorem full_shift_whole_periods (F : EVT2Format) (ts : Bool) (b : Int)
    (bufs : List (List RawEvent)) (buf : List RawEvent) :
    (EVT2Decoder.fresh b).full_shift_ = 0 ∧
    (EVT2Decoder.fresh b).shift_th_ = 0 ∧
    (EVT2Decoder.fresh b).base_time_set_ = false ∧
    (∃ k k2 : ℕ, k ≤ k2 ∧
      (decode_calls F ts (EVT2Decoder.fresh b) bufs).1.full_shift_ +
          (decode_calls F ts (EVT2Decoder.fresh b) bufs).1.shift_th_ =
        (k : Int) * TimeLoop F ∧
      (decode_impl F ts (decode_calls F ts (EVT2Decoder.fresh b) bufs).1 buf).1.full_shift_ +
          (decode_impl F ts (decode_calls F ts (EVT2Decoder.fresh b) bufs).1 buf).1.shift_th_ =
        (k2 : Int) * TimeLoop F) ∧
    ∀ t ∈ timestamps (decode_calls F false (EVT2Decoder.fresh b) bufs).2, 0 ≤ t := by
  refine ⟨rfl, rfl, rfl, ?_, ?_⟩
  · obtain ⟨⟨j1, h1⟩, r1⟩ := decode_calls_shift_sum F ts (EVT2Decoder.fresh b) bufs
      (fun _ => rfl)
    obtain ⟨⟨j2, h2⟩, _⟩ := decode_impl_shift_sum F ts
      (decode_calls F ts (EVT2Decoder.fresh b) bufs).1 buf r1
    have hz : (EVT2Decoder.fresh b).full_shift_ + (EVT2Decoder.fresh b).shift_th_ = 0 := rfl
    refine ⟨j1, j1 + j2, Nat.le_add_right _ _, ?_, ?_⟩
    · rw [h1, hz]
      ring
    · rw [h2, h1, hz]
      push_cast
      ring
  · exact decode_calls_nonneg F (EVT2Decoder.fresh b) bufs
      (fun h => absurd h (by simp [EVT2Decoder.fresh]))

end Metavision
